import Mathlib

/-! # nanotube: record parsing, path normalization and routing

A shallow embedding of `pkg/rec/rec_bytes.go`, `pkg/rules/rules.go` and
`cmd/nanotube/process.go`.

Conventions of the embedding:

* a Go `[]byte` is a `List Byte` with `Byte := Nat` (every theorem holds for
  all naturals, hence for all values below 256); a nil slice and an empty
  slice are both `[]`;
* a Go `error` is an `Option String` (`none` is `nil`), and `errors.Wrap`
  prefixes the message as the library does;
* a Go `for` loop over an index is a function that is structurally recursive
  on a fuel argument; each call site passes the number of positions left, so
  the fuel is exhausted only where the loop condition fails anyway;
* a run-time panic (index or slice out of range) is the outer `none` of an
  `Option` result.
-/

namespace Nanotube

/-! ## Bytes and errors -/

/-- A byte of a Go byte slice. -/
abbrev Byte := Nat

/-- The byte `' '`. -/
def space : Byte := 32
/-- The byte `'\t'`. -/
def tab : Byte := 9
/-- The byte `'\n'`. -/
def newline : Byte := 10
/-- The byte `'.'`. -/
def dot : Byte := 46
/-- The byte `'_'`. -/
def underscore : Byte := 95

/-- A Go `error` value: `none` is `nil`, `some msg` carries the message. -/
abbrev GoError := Option String

/-- The function `errors.Wrap(err, msg)` for a non-nil `err`. -/
def wrap (err : String) (msg : String) : String := msg ++ ": " ++ err

/-- A Go slice expression `s[a:b]`; `none` is the out-of-range panic. -/
def slice (s : List Byte) (a b : Nat) : Option (List Byte) :=
  if a ≤ b ∧ b ≤ s.length then some ((s.drop a).take (b - a)) else none

/-- The Go builtin `copy(dst, src)`: overwrites the first
`min(len(dst), len(src))` elements of `dst`, whose length does not change. -/
def goCopy (dst src : List Byte) : List Byte :=
  src.take (min dst.length src.length) ++ dst.drop (min dst.length src.length)

/-! ## `pkg/rec/rec_bytes.go` -/

/-- The struct `RecBytes`. `Val` is the bit pattern of the `float64`,
`Received` the instant read from the injected clock. -/
structure RecBytes where
  Path : List Byte
  Val : Nat
  RawVal : List Byte
  Time : Nat
  RawTime : List Byte
  Received : Nat
  deriving DecidableEq, Repr

/-- The function `isWhitespace`. -/
def isWhitespace (c : Byte) : Bool := c == space || c == tab

/-- First loop of `getField`:
`for ; start < len(s) && isWhitespace(s[start]); start++ {}`. -/
def getFieldSkip (s : List Byte) : Nat → Nat → Nat
  | 0, start => start
  | fuel + 1, start =>
    if h : start < s.length then
      if isWhitespace s[start] then getFieldSkip s fuel (start + 1) else start
    else start

/-- Second loop of `getField`:
`for ; end < len(s) && !isWhitespace(s[end]); end++ {}`. -/
def getFieldScan (s : List Byte) : Nat → Nat → Nat
  | 0, e => e
  | fuel + 1, e =>
    if h : e < s.length then
      if !isWhitespace s[e] then getFieldScan s fuel (e + 1) else e
    else e

/-- The function `getField`: bounds of the first field at or after `st`. -/
def getField (s : List Byte) (st : Nat) : Nat × Nat × GoError :=
  if st = s.length then
    (st, st, some "start point beyond the string end")
  else
    let start := getFieldSkip s (s.length - st) st
    if start = s.length then
      (st, st, some "string contains only whitespace")
    else
      let e := getFieldScan s (s.length - (start + 1)) (start + 1)
      (start, e, none)

/-- The six bounds and the error returned by `recFields`. -/
structure FieldBounds where
  pathStart : Nat
  pathEnd : Nat
  valStart : Nat
  valEnd : Nat
  timeStart : Nat
  timeEnd : Nat
  retErr : GoError
  deriving DecidableEq, Repr

/-- The function `recFields`. The named results keep the values assigned
before an early return. -/
def recFields (s : List Byte) : FieldBounds :=
  match getField s 0 with
  | (pathStart, pathEnd, some err) =>
    ⟨pathStart, pathEnd, 0, 0, 0, 0, some (wrap err "failed to find path in record")⟩
  | (pathStart, pathEnd, none) =>
    match getField s pathEnd with
    | (valStart, valEnd, some err) =>
      ⟨pathStart, pathEnd, valStart, valEnd, 0, 0,
        some (wrap err "failed to find value in record")⟩
    | (valStart, valEnd, none) =>
      match getField s valEnd with
      | (timeStart, timeEnd, some err) =>
        ⟨pathStart, pathEnd, valStart, valEnd, timeStart, timeEnd,
          some (wrap err "failed to find time in record")⟩
      | (timeStart, timeEnd, none) =>
        ⟨pathStart, pathEnd, valStart, valEnd, timeStart, timeEnd, none⟩

/-- First loop of `normalizePathBytes`:
`for ; start < len(s) && s[start] == '.'; start++ {}`. -/
def normStart (s : List Byte) : Nat → Nat → Nat
  | 0, start => start
  | fuel + 1, start =>
    if h : start < s.length then
      if s[start] = dot then normStart s fuel (start + 1) else start
    else start

/-- A read `s[i]` at a Go `int` index; `none` is the out-of-range panic. -/
def readAt (s : List Byte) (i : Int) : Option Byte :=
  if 0 ≤ i then s[i.toNat]? else none

/-- Second loop of `normalizePathBytes`:
`for ; end >= start && s[end] == '.'; end-- {}`. -/
def normEnd (s : List Byte) (start : Nat) : Nat → Int → Option Int
  | 0, e => some e
  | fuel + 1, e =>
    if e ≥ (start : Int) then
      (readAt s e).bind fun c =>
        if c = dot then normEnd s start fuel (e - 1) else some e
    else some e

/-- Third loop of `normalizePathBytes`, which computes `needsNormalization`
for the positions `i, ..., end`. -/
def normCheck (validChar : Byte → Bool) (s : List Byte) (e : Int) : Nat → Nat → Option Bool
  | 0, _ => some false
  | fuel + 1, i =>
    if (i : Int) ≤ e then
      (readAt s i).bind fun c =>
        if c = dot then
          (readAt s (i + 1)).bind fun d =>
            if d = dot then some true
            else if !validChar c then some true
            else normCheck validChar s e fuel (i + 1)
        else if !validChar c then some true
        else normCheck validChar s e fuel (i + 1)
    else some false

/-- Fourth loop of `normalizePathBytes`, which appends to `res` the
normalized bytes of the positions `i, ..., end`. -/
def normBuild (validChar : Byte → Bool) (s : List Byte) (e : Int) :
    Nat → Nat → List Byte → Option (List Byte)
  | 0, _, res => some res
  | fuel + 1, i, res =>
    if (i : Int) ≤ e then
      (readAt s i).bind fun c =>
        let emit : Option (List Byte) :=
          if validChar c then normBuild validChar s e fuel (i + 1) (res ++ [c])
          else normBuild validChar s e fuel (i + 1) (res ++ [underscore])
        if c = dot then
          (readAt s (i + 1)).bind fun d =>
            if d = dot then normBuild validChar s e fuel (i + 1) res else emit
        else emit
    else some res

/-- The function `normalizePathBytes`: the updated path, whether any
normalization was done, and the error. The set of allowed bytes `validChar`
is declared outside the files embedded here and is a parameter. -/
def normalizePathBytes (validChar : Byte → Bool) (s : List Byte) :
    Option (List Byte × Bool × GoError) :=
  if s.length = 0 then some ([], false, none)
  else
    let start := normStart s s.length 0
    if start = s.length then some ([], true, some "path contains only dots")
    else
      (normEnd s start s.length ((s.length : Int) - 1)).bind fun e =>
      (normCheck validChar s e s.length start).bind fun needsNormalization =>
        if needsNormalization then
          (normBuild validChar s e s.length start []).bind fun res =>
            some (res, true, none)
        else if start = 0 ∧ e = (s.length : Int) - 1 then some (s, false, none)
        else
          (if 0 ≤ e + 1 then slice s start (e + 1).toNat else none).bind fun res =>
            some (res, true, none)

/-- The function `ParseRecBytes`: the record (`none` is the nil pointer) and
the error. `now` is the value of the injected clock `nowF()`; the logger and
the `shouldLog` flag are not used by the body. -/
def ParseRecBytes (validChar : Byte → Bool) (s : List Byte) (normalize : Bool) (now : Nat) :
    Option (Option RecBytes × GoError) :=
  let f := recFields s
  match f.retErr with
  | some err => some (none, some (wrap err "failed to break record into fields"))
  | none =>
    (if normalize then
      (slice s f.pathStart f.pathEnd).bind fun p =>
        (normalizePathBytes validChar p).bind fun r =>
          match r with
          | (_, _, some err) => some (Except.error (wrap err "failed to normalize path"))
          | (path, _, none) => some (Except.ok path)
    else (slice s f.pathStart f.pathEnd).map Except.ok).bind fun pathOrErr =>
      match pathOrErr with
      | Except.error err => some (none, some err)
      | Except.ok path =>
        (slice s f.valStart f.valEnd).bind fun rawVal =>
        (slice s f.timeStart f.timeEnd).bind fun rawTime =>
          some (some { Path := path, Val := 0, RawVal := rawVal, Time := 0,
                       RawTime := rawTime, Received := now }, none)

/-- The method `RecBytes.Serialize`. -/
def RecBytes.Serialize (r : RecBytes) : List Byte :=
  ((((([] ++ r.Path) ++ [space]) ++ r.RawVal) ++ [space]) ++ r.RawTime) ++ [newline]

/-- The method `RecBytes.Copy`. The composite literal leaves `Path`, `RawVal`
and `RawTime` nil, and the three `copy` calls write into those nil slices. -/
def RecBytes.Copy (r : RecBytes) : RecBytes :=
  let cpy : RecBytes :=
    { Path := [], Val := r.Val, RawVal := [], Time := r.Time, RawTime := [],
      Received := r.Received }
  let cpy := { cpy with Path := goCopy cpy.Path r.Path }
  let cpy := { cpy with RawVal := goCopy cpy.RawVal r.RawVal }
  let cpy := { cpy with RawTime := goCopy cpy.RawTime r.RawTime }
  cpy

/-- Modelled from the spec: `validChar` is declared outside the embedded
files; the spec describes the allowed set as "alphanumeric plus a small fixed
set of punctuation used as path separators/safe characters". This instance
(letters, digits, `.`, `_`, `-`, `:`) is used only to instantiate theorems
at concrete inputs. -/
def validCharSample (c : Byte) : Bool :=
  (97 ≤ c && c ≤ 122) || (65 ≤ c && c ≤ 90) || (48 ≤ c && c ≤ 57) ||
    c == dot || c == underscore || c == 45 || c == 58

/-- Every byte of `w` is a space or a tab. -/
def WsRun (w : List Byte) : Prop := ∀ c ∈ w, isWhitespace c = true

/-- No byte of `f` is a space or a tab. -/
def NoWs (f : List Byte) : Prop := ∀ c ∈ f, isWhitespace c = false

/-- The list `rest` is empty or begins with a space or a tab. -/
def WsOrEnd (rest : List Byte) : Prop := ∀ c, rest.head? = some c → isWhitespace c = true

instance (w : List Byte) : Decidable (WsRun w) := by unfold WsRun; infer_instance
instance (f : List Byte) : Decidable (NoWs f) := by unfold NoWs; infer_instance
instance (rest : List Byte) : Decidable (WsOrEnd rest) := by
  cases rest with
  | nil => exact isTrue (by intro c h; simp at h)
  | cons x xs =>
    by_cases hx : isWhitespace x = true
    · exact isTrue (by intro c h; simp at h; subst h; exact hx)
    · exact isFalse (fun h => hx (h x rfl))

/-- Number of maximal runs of non-space, non-tab bytes in a list whose
predecessor byte was whitespace (or absent) when `prevWs` is true: a run is
counted at its first byte. -/
def countFieldsAux : Bool → List Byte → Nat
  | _, [] => 0
  | prevWs, c :: cs =>
    (if prevWs && !isWhitespace c then 1 else 0) + countFieldsAux (isWhitespace c) cs

/-- Number of maximal runs of non-space, non-tab bytes of `s`. -/
def countFields (s : List Byte) : Nat := countFieldsAux true s

/-! ## `pkg/rules/rules.go` -/

/-- A cluster target `target.ClusterTarget`: an interface value, used as a
map key and compared by identity; the natural number is that identity. -/
abbrev ClusterTarget := Nat

/-- Modelled from the spec: the type `PrefixTrie` is declared outside the
embedded files. The spec describes it as a trie "built by inserting every
declared prefix string" whose query is "does the candidate path start with
any previously inserted prefix"; the model keeps the inserted prefixes. -/
structure PrefixTrie where
  prefixes : List (List Byte)

/-- Modelled from the spec: `NewPrefixTrie`, the empty trie, which "matches
nothing". -/
def NewPrefixTrie : PrefixTrie := ⟨[]⟩

/-- Modelled from the spec: `PrefixTrie.Add`, the insertion of a prefix. -/
def PrefixTrie.Add (t : PrefixTrie) (pre : List Byte) : PrefixTrie := ⟨t.prefixes ++ [pre]⟩

/-- Modelled from the spec: `PrefixTrie.Check`, whether the path starts with
an inserted prefix. -/
def PrefixTrie.Check (t : PrefixTrie) (path : List Byte) : Bool :=
  t.prefixes.any fun pre => pre.isPrefixOf path

/-- The struct `Rule`. A compiled regular expression is the predicate
`re.Match`; a prefix is the byte sequence of the Go string. The
`regexDuration` observers only feed the metrics and are left out. -/
structure Rule where
  Regexs : List String
  Prefixes : List (List Byte)
  Targets : List ClusterTarget
  Continue : Bool
  CompiledRE : List (List Byte → Bool)
  PrefixTrie : PrefixTrie

/-- The struct `Rules` (without its metrics handle). -/
structure Rules where
  rules : List Rule
  measureRegex : Bool

/-- The trie `compile` attaches to a rule: `NewPrefixTrie()` followed by one
`Add` per declared prefix, in order. -/
def compileTrie (prefixes : List (List Byte)) : PrefixTrie :=
  prefixes.foldl PrefixTrie.Add NewPrefixTrie

/-- The loop of `MatchBytes` over the compiled regular expressions, which
returns true at the first one that matches. -/
def matchRegexs (path : List Byte) : List (List Byte → Bool) → Bool
  | [] => false
  | re :: res => if re path then true else matchRegexs path res

/-- The method `Rule.MatchBytes`. The timers started when `measureRegex` is
set only observe durations and do not change the result. -/
def Rule.MatchBytes (rl : Rule) (r : RecBytes) : Bool :=
  if rl.PrefixTrie.Check r.Path then true else matchRegexs r.Path rl.CompiledRE

/-- What a call of `RouteRecBytes` has done so far: the local set
`pushedTo`, the `PushBytes` calls in order, and the errors logged (target,
error, serialized record). -/
structure RouteState where
  pushedTo : List ClusterTarget
  pushes : List (ClusterTarget × RecBytes)
  logged : List (ClusterTarget × String × List Byte)

/-- The targets of the `PushBytes` calls, in order. -/
def RouteState.calls (st : RouteState) : List ClusterTarget := st.pushes.map Prod.fst

/-- Inner loop of `RouteRecBytes` over the targets of a matched rule.
`push cl r` is the error returned by `cl.PushBytes(r, ...)`. -/
def pushTargets (push : ClusterTarget → RecBytes → GoError) (r : RecBytes) :
    List ClusterTarget → RouteState → RouteState
  | [], st => st
  | cl :: cls, st =>
    if cl ∈ st.pushedTo then pushTargets push r cls st
    else
      let err := push cl r
      let st1 : RouteState :=
        { st with
          pushes := st.pushes ++ [(cl, r)]
          logged := match err with
            | some e => st.logged ++ [(cl, e, r.Serialize)]
            | none => st.logged }
      pushTargets push r cls { st1 with pushedTo := cl :: st1.pushedTo }

/-- Outer loop of `RouteRecBytes` over the rules. -/
def routeLoop (push : ClusterTarget → RecBytes → GoError) (r : RecBytes) :
    List Rule → RouteState → RouteState
  | [], st => st
  | rl :: rls, st =>
    let matchedRule := rl.MatchBytes r
    let st1 := if matchedRule then pushTargets push r rl.Targets st else st
    if matchedRule && !rl.Continue then st1 else routeLoop push r rls st1

/-- The method `Rules.RouteRecBytes`. -/
def Rules.RouteRecBytes (push : ClusterTarget → RecBytes → GoError) (rs : Rules)
    (r : RecBytes) : RouteState :=
  routeLoop push r rs.rules ⟨[], [], []⟩

/-! ## `cmd/nanotube/process.go` -/

/-- What a call of `proc` has done: the `PushBytes` calls in order, the push
errors logged, and the number of increments of the `ErrorRecs` counter. -/
structure ProcEffects where
  pushes : List (ClusterTarget × RecBytes)
  logged : List (ClusterTarget × String × List Byte)
  errorRecs : Nat

/-- The function `proc`. `rewrite` is `rewrites.RewriteMetricBytes`, an
external collaborator; the outer `none` is a panic. -/
def proc (validChar : Byte → Bool) (push : ClusterTarget → RecBytes → GoError)
    (rules : Rules) (rewrite : RecBytes → List RecBytes) (s : List Byte)
    (shouldNormalize : Bool) (now : Nat) : Option ProcEffects :=
  (ParseRecBytes validChar s shouldNormalize now).bind fun res =>
    match res with
    | (_, some _) => some ⟨[], [], 1⟩
    | (none, none) => none
    | (some r, none) =>
      let recs := rewrite r
      some (recs.foldl (fun eff rec =>
        let st := rules.RouteRecBytes push rec
        { eff with pushes := eff.pushes ++ st.pushes, logged := eff.logged ++ st.logged })
        ⟨[], [], 0⟩)

/-- The bytes of an ASCII string literal. -/
def bytes (s : String) : List Byte := s.toList.map Char.toNat

/-- A rule that matches the paths with one of the given prefixes, as
`compile` leaves it. -/
def prefixRule (prefixes : List (List Byte)) (targets : List ClusterTarget) (cont : Bool) :
    Rule :=
  { Regexs := [], Prefixes := prefixes, Targets := targets, Continue := cont,
    CompiledRE := [], PrefixTrie := compileTrie prefixes }

/-- The target `t` belongs to a rule that matches the record and that no
matching rule with a false `Continue` flag precedes. -/
def Dispatched (r : RecBytes) (rules : List Rule) (t : ClusterTarget) : Prop :=
  ∃ pre rl post, rules = pre ++ rl :: post ∧
    (∀ x ∈ pre, ¬(x.MatchBytes r = true ∧ x.Continue = false)) ∧
    rl.MatchBytes r = true ∧ t ∈ rl.Targets

/-- Invariant of the routing loops: `pushedTo` holds exactly the targets
pushed, no target was pushed twice, and every push carried the record. -/
def RouteInv (r : RecBytes) (st : RouteState) : Prop :=
  (∀ t, t ∈ st.pushedTo ↔ t ∈ st.calls) ∧ st.calls.Nodup ∧ ∀ x ∈ st.pushes, x.2 = r

/-! ## Reference description of path normalization -/

/-- The byte is a dot. -/
def isDot (c : Byte) : Bool := c == dot

/-- The path without its leading dots and without its trailing dots. -/
def stripDots (p : List Byte) : List Byte :=
  ((p.dropWhile isDot).reverse.dropWhile isDot).reverse

/-- Drops every dot that is immediately followed by another dot. -/
def dropDotBeforeDot : List Byte → List Byte
  | [] => []
  | c :: rest =>
    if c = dot ∧ rest.head? = some dot then dropDotBeforeDot rest
    else c :: dropDotBeforeDot rest

/-- Replaces every byte outside the allowed set by `'_'`. -/
def replaceInvalid (validChar : Byte → Bool) (l : List Byte) : List Byte :=
  l.map fun c => if validChar c then c else underscore

/-- The reference result of normalization: strip the leading and trailing
dots, drop every dot immediately followed by a dot, replace the bytes outside
the allowed set. -/
def normalizeRef (validChar : Byte → Bool) (p : List Byte) : List Byte :=
  replaceInvalid validChar (dropDotBeforeDot (stripDots p))

/-- Whether a stripped path holds a dot followed by a dot or a byte outside
the allowed set. -/
def needsNorm (validChar : Byte → Bool) : List Byte → Bool
  | [] => false
  | c :: rest =>
    (c == dot && rest.head? == some dot) || !validChar c || needsNorm validChar rest

/-- No two adjacent bytes are both dots. -/
def NoAdjacentDots (q : List Byte) : Prop :=
  List.Chain' (fun a b => ¬(a = dot ∧ b = dot)) q

/-- A list whose last byte, if any, is not a dot. -/
def LastNotDot (u : List Byte) : Prop := ∀ c, u.getLast? = some c → c ≠ dot

/-- A list whose first byte, if any, is not a dot. -/
def HeadNotDot (u : List Byte) : Prop := ∀ c, u.head? = some c → c ≠ dot

/-! ## `Build` and `compile` -/

/-- The struct `conf.Rule`, declared outside the embedded files, with the
fields `Build` reads. A cluster name is a Go string. -/
structure ConfRule where
  Regexs : List String
  Prefixes : List (List Byte)
  Clusters : List String
  Continue : Bool

/-- What `regexp.Compile` returns: the compiled expression (its match
predicate) or the message of the error. -/
abbrev CompileResult := Except String (List Byte → Bool)

/-- The text `fmt` prints for `%s` of a nil `*regexp.Regexp`: the `String`
method panics on the nil receiver and `fmt` prints `<nil>`. -/
def fmtNilRegexp : String := "<nil>"

/-- The message of `fmt.Errorf("got non-existent cluster name %s in the rules
config", clName)`. -/
def unknownClusterMsg (clName : String) : String :=
  "got non-existent cluster name " ++ clName ++ " in the rules config"

/-- Inner loop of `Build` over the cluster names of one declared rule:
`targets` is `r.Targets` so far. On a missing name the loop stops with the
error. -/
def buildTargets (clusters : String → Option ClusterTarget) :
    List String → List ClusterTarget → List ClusterTarget × GoError
  | [], targets => (targets, none)
  | clName :: rest, targets =>
    match clusters clName with
    | none => (targets, some (unknownClusterMsg clName))
    | some cl => buildTargets clusters rest (targets ++ [cl])

/-- Outer loop of `Build` over the declared rules: `rules` is `rs.rules` so
far. A rule is appended with nil `CompiledRE` and a nil `PrefixTrie`, which
is represented by the trie without prefixes. -/
def buildRules (clusters : String → Option ClusterTarget) :
    List ConfRule → List Rule → List Rule × GoError
  | [], rules => (rules, none)
  | cr :: crs, rules =>
    let r : Rule :=
      { Regexs := cr.Regexs, Prefixes := cr.Prefixes, Targets := [], Continue := cr.Continue,
        CompiledRE := [], PrefixTrie := NewPrefixTrie }
    match buildTargets clusters cr.Clusters r.Targets with
    | (_, some err) => (rules, some err)
    | (targets, none) => buildRules clusters crs (rules ++ [{ r with Targets := targets }])

/-- Inner loop of `compile` over the regex sources of one rule: `compiled`
is `rs.rules[i].CompiledRE` so far. On failure `cre` is nil and the message
is that of `errors.Wrapf(err, "compiling regex %s failed", cre)`. -/
def compileRegexs (regexpCompile : String → CompileResult) :
    List String → List (List Byte → Bool) → List (List Byte → Bool) × GoError
  | [], compiled => (compiled, none)
  | re :: rest, compiled =>
    match regexpCompile re with
    | Except.error err =>
      (compiled, some (wrap err ("compiling regex " ++ fmtNilRegexp ++ " failed")))
    | Except.ok cre => compileRegexs regexpCompile rest (compiled ++ [cre])

/-- Outer loop of `compile`: `done` holds the rules already compiled and the
first argument the rules still to compile. The rules are elements of the
slice shared with the caller, so the result is the content of that slice
when `compile` returns. -/
def compileRules (regexpCompile : String → CompileResult) :
    List Rule → List Rule → List Rule × GoError
  | [], done => (done, none)
  | rl :: rest, done =>
    match compileRegexs regexpCompile rl.Regexs [] with
    | (compiled, some err) => (done ++ [{ rl with CompiledRE := compiled }] ++ rest, some err)
    | (compiled, none) =>
      compileRules regexpCompile rest
        (done ++ [{ rl with CompiledRE := compiled, PrefixTrie := compileTrie rl.Prefixes }])

/-- The method `Rules.compile`: the content of `rs.rules` afterwards and the
error. The observers attached when `measureRegex` is set only feed the
metrics. -/
def Rules.compile (regexpCompile : String → CompileResult) (rs : Rules) : Rules × GoError :=
  match compileRules regexpCompile rs.rules [] with
  | (rules, err) => ({ rs with rules := rules }, err)

/-- The function `Build`: the table and the error, both returned on every
path. `clusters` is the map `target.Clusters`, `regexpCompile` the library
function `regexp.Compile`. -/
def Build (regexpCompile : String → CompileResult) (crs : List ConfRule)
    (clusters : String → Option ClusterTarget) (measureRegex : Bool) : Rules × GoError :=
  match buildRules clusters crs [] with
  | (rules, some err) => ({ rules := rules, measureRegex := measureRegex }, some err)
  | (rules, none) =>
    match Rules.compile regexpCompile { rules := rules, measureRegex := measureRegex } with
    | (rs, some err) => (rs, some (wrap err "rules compilation failed"))
    | (rs, none) => (rs, none)

/-- The cluster names of a configuration in declaration order: rules in
order, names within a rule in order. -/
def declaredClusters (crs : List ConfRule) : List String :=
  (crs.map ConfRule.Clusters).flatten

/-- The regex sources of a configuration in declaration order. -/
def declaredRegexs (crs : List ConfRule) : List String :=
  (crs.map ConfRule.Regexs).flatten

/-- A compiled rule carries what its declaration says. -/
def RuleOf (regexpCompile : String → CompileResult) (clusters : String → Option ClusterTarget)
    (cr : ConfRule) (rl : Rule) : Prop :=
  rl.Regexs = cr.Regexs ∧ rl.Prefixes = cr.Prefixes ∧ rl.Continue = cr.Continue ∧
    List.Forall₂ (fun clName cl => clusters clName = some cl) cr.Clusters rl.Targets ∧
    List.Forall₂ (fun re cre => regexpCompile re = Except.ok cre) cr.Regexs rl.CompiledRE ∧
    rl.PrefixTrie = compileTrie cr.Prefixes

/-- A sample cluster map: `main` is target 1 and `backup` is target 2. -/
def clustersSample (clName : String) : Option ClusterTarget :=
  if clName = "main" then some 1 else if clName = "backup" then some 2 else none

/-- A sample of `regexp.Compile`: the sources `x{1001}` and `a**` are
rejected with the messages of the library, every other source compiles to an
expression that matches the paths starting with `a`. -/
def regexpCompileSample (re : String) : CompileResult :=
  if re = "x\x7b1001\x7d" then
    Except.error "error parsing regexp: invalid repeat count: `\x7b1001\x7d`"
  else if re = "a**" then
    Except.error "error parsing regexp: invalid nested repetition operator: `**`"
  else Except.ok fun path => path.head? == some 97

/-- The cluster name is absent from the cluster map. -/
def isMissing (clusters : String → Option ClusterTarget) (clName : String) : Bool :=
  (clusters clName).isNone

/-- The regex source does not compile. -/
def failsCompile (regexpCompile : String → CompileResult) (re : String) : Bool :=
  match regexpCompile re with
  | Except.error _ => true
  | Except.ok _ => false

/-- A rule as the first loop of `Build` appends it for a declaration: the
declared fields, the targets looked up in order, nothing compiled yet. -/
def PreRuleOf (clusters : String → Option ClusterTarget) (cr : ConfRule) (rl : Rule) : Prop :=
  rl.Regexs = cr.Regexs ∧ rl.Prefixes = cr.Prefixes ∧ rl.Continue = cr.Continue ∧
    List.Forall₂ (fun clName cl => clusters clName = some cl) cr.Clusters rl.Targets ∧
    rl.CompiledRE = [] ∧ rl.PrefixTrie = NewPrefixTrie

/-- The rule `Build` appends for a declaration whose targets are `targets`. -/
def preRule (cr : ConfRule) (targets : List ClusterTarget) : Rule :=
  { Regexs := cr.Regexs, Prefixes := cr.Prefixes, Targets := targets, Continue := cr.Continue,
    CompiledRE := [], PrefixTrie := NewPrefixTrie }

/-- A rule as `compile` leaves it when all its regex sources compile. -/
def CompiledOf (regexpCompile : String → CompileResult) (rl rl' : Rule) : Prop :=
  rl'.Regexs = rl.Regexs ∧ rl'.Prefixes = rl.Prefixes ∧ rl'.Continue = rl.Continue ∧
    rl'.Targets = rl.Targets ∧
    List.Forall₂ (fun re cre => regexpCompile re = Except.ok cre) rl.Regexs rl'.CompiledRE ∧
    rl'.PrefixTrie = compileTrie rl.Prefixes

/-! # Theorems -/

/-! ## List facts used by the loop characterisations -/

theorem takeWhile_length_stop {α : Type} (p : α → Bool) :
    ∀ (l : List α) (h : (l.takeWhile p).length < l.length),
      p (l[(l.takeWhile p).length]) = false
  | [], h => by simp at h
  | c :: cs, h => by
    by_cases hc : p c = true
    · have h2 : (cs.takeWhile p).length < cs.length := by
        simpa [List.takeWhile_cons, hc] using h
      have := takeWhile_length_stop p cs h2
      simpa [List.takeWhile_cons, hc] using this
    · simp [List.takeWhile_cons, hc]

theorem takeWhile_append_stop {α : Type} (p : α → Bool) (a b : List α)
    (ha : ∀ x ∈ a, p x = true) (hb : ∀ c, b.head? = some c → p c = false) :
    (a ++ b).takeWhile p = a := by
  induction a with
  | nil =>
    cases b with
    | nil => rfl
    | cons c cs => simp [List.takeWhile_cons, hb c rfl]
  | cons x xs ih =>
    have hx : p x = true := ha x (by simp)
    simp [List.takeWhile_cons, hx, ih (fun y hy => ha y (by simp [hy]))]

theorem drop_takeWhile_length {α : Type} (p : α → Bool) (l : List α) :
    l.drop (l.takeWhile p).length = l.dropWhile p := by
  induction l with
  | nil => rfl
  | cons c cs ih =>
    by_cases hc : p c = true
    · simp [List.takeWhile_cons, List.dropWhile_cons, hc, ih]
    · simp [List.takeWhile_cons, List.dropWhile_cons, hc]

/-! ## The loops of `getField` -/

theorem getFieldSkip_eq (s : List Byte) :
    ∀ (fuel start : Nat), s.length - start ≤ fuel →
      getFieldSkip s fuel start = start + ((s.drop start).takeWhile isWhitespace).length
  | 0, start, h => by
    have : s.length ≤ start := by omega
    simp [getFieldSkip, List.drop_eq_nil_of_le this]
  | fuel + 1, start, h => by
    unfold getFieldSkip
    by_cases hlt : start < s.length
    · rw [dif_pos hlt, List.drop_eq_getElem_cons hlt]
      by_cases hw : isWhitespace s[start] = true
      · rw [if_pos hw, getFieldSkip_eq s fuel (start + 1) (by omega)]
        simp [-List.getElem_cons_drop, List.takeWhile_cons, hw]
        omega
      · rw [if_neg hw]
        simp [-List.getElem_cons_drop, List.takeWhile_cons, hw]
    · rw [dif_neg hlt]
      simp [List.drop_eq_nil_of_le (Nat.le_of_not_lt hlt)]

theorem getFieldScan_eq (s : List Byte) :
    ∀ (fuel e : Nat), s.length - e ≤ fuel →
      getFieldScan s fuel e =
        e + ((s.drop e).takeWhile (fun c => !isWhitespace c)).length
  | 0, e, h => by
    have : s.length ≤ e := by omega
    simp [getFieldScan, List.drop_eq_nil_of_le this]
  | fuel + 1, e, h => by
    unfold getFieldScan
    by_cases hlt : e < s.length
    · rw [dif_pos hlt, List.drop_eq_getElem_cons hlt]
      by_cases hw : isWhitespace s[e] = true
      · simp [-List.getElem_cons_drop, List.takeWhile_cons, hw]
      · have hw2 : isWhitespace s[e] = false := by simpa using hw
        rw [if_pos (by simp [hw2]), getFieldScan_eq s fuel (e + 1) (by omega)]
        simp [-List.getElem_cons_drop, List.takeWhile_cons, hw2]
        omega
    · rw [dif_neg hlt]
      simp [List.drop_eq_nil_of_le (Nat.le_of_not_lt hlt)]

/-- What `getField` returns, in terms of the suffix `s.drop st`. -/
theorem getField_spec (s : List Byte) (st : Nat) (h : st < s.length) :
    getField s st =
      if st + ((s.drop st).takeWhile isWhitespace).length = s.length then
        (st, st, some "string contains only whitespace")
      else
        (st + ((s.drop st).takeWhile isWhitespace).length,
          st + ((s.drop st).takeWhile isWhitespace).length +
            ((s.drop (st + ((s.drop st).takeWhile isWhitespace).length)).takeWhile
              (fun c => !isWhitespace c)).length, none) := by
  unfold getField
  rw [if_neg (Nat.ne_of_lt h)]
  simp only [getFieldSkip_eq s _ st (le_refl _)]
  generalize hk : ((s.drop st).takeWhile isWhitespace).length = k
  by_cases hend : st + k = s.length
  · simp [hend]
  · have hkle : k ≤ (s.drop st).length := by
      rw [← hk]; exact (List.takeWhile_sublist _).length_le
    have hlt : st + k < s.length := by
      rw [List.length_drop] at hkle; omega
    have hstop : isWhitespace s[st + k] = false := by
      have h1 : ((s.drop st).takeWhile isWhitespace).length < (s.drop st).length := by
        rw [hk, List.length_drop]; omega
      have := takeWhile_length_stop isWhitespace (s.drop st) h1
      simpa [hk] using this
    simp only [if_neg hend]
    rw [getFieldScan_eq s _ (st + k + 1) (le_refl _), List.drop_eq_getElem_cons hlt]
    simp [-List.getElem_cons_drop, List.takeWhile_cons, hstop]
    omega

theorem slice_append (pre f post : List Byte) :
    slice (pre ++ (f ++ post)) pre.length (pre.length + f.length) = some f := by
  unfold slice
  rw [if_pos (by simp)]
  simp

/-- The field found by `getField` after a prefix `pre`, a whitespace run `w`
and before a remainder that is empty or starts with whitespace. -/
theorem getField_append (pre w f rest : List Byte) (hw : WsRun w) (hf : NoWs f)
    (hne : f ≠ []) (hrest : WsOrEnd rest) :
    getField (pre ++ (w ++ (f ++ rest))) pre.length =
      (pre.length + w.length, pre.length + w.length + f.length, none) := by
  obtain ⟨c, f', rfl⟩ := List.exists_cons_of_ne_nil hne
  have hc : isWhitespace c = false := hf c (by simp)
  have hlen : pre.length < (pre ++ (w ++ (c :: f' ++ rest))).length := by
    simp
  rw [getField_spec _ _ hlen, List.drop_left]
  have h1 : (w ++ (c :: f' ++ rest)).takeWhile isWhitespace = w :=
    takeWhile_append_stop _ _ _ hw (by intro x hx; simp at hx; subst hx; exact hc)
  rw [h1]
  have h2 : (pre ++ (w ++ (c :: f' ++ rest))).drop (pre.length + w.length)
      = c :: f' ++ rest := by
    rw [← List.append_assoc, ← List.length_append, List.drop_left]
  have h3 : (c :: f' ++ rest).takeWhile (fun x => !isWhitespace x) = c :: f' :=
    takeWhile_append_stop _ _ _ (by intro x hx; simp [hf x hx])
      (by intro x hx; simp [hrest x hx])
  rw [h2, h3, if_neg (by simp)]

/-- The bounds `recFields` returns on a line of three fields. -/
theorem recFields_three (w0 p w1 v w2 t rest : List Byte)
    (hw0 : WsRun w0) (hp : NoWs p) (hpne : p ≠ [])
    (hw1 : WsRun w1) (hw1ne : w1 ≠ []) (hv : NoWs v) (hvne : v ≠ [])
    (hw2 : WsRun w2) (hw2ne : w2 ≠ []) (ht : NoWs t) (htne : t ≠ [])
    (hrest : WsOrEnd rest) :
    recFields (w0 ++ p ++ w1 ++ v ++ w2 ++ t ++ rest) =
      ⟨w0.length, w0.length + p.length,
        w0.length + p.length + w1.length, w0.length + p.length + w1.length + v.length,
        w0.length + p.length + w1.length + v.length + w2.length,
        w0.length + p.length + w1.length + v.length + w2.length + t.length, none⟩ := by
  have wsHead : ∀ (w x : List Byte), WsRun w → w ≠ [] → WsOrEnd (w ++ x) := by
    intro w x hw hne c hc
    obtain ⟨a, w', rfl⟩ := List.exists_cons_of_ne_nil hne
    simp at hc; subst hc; exact hw a (by simp)
  have e1 : getField (w0 ++ p ++ w1 ++ v ++ w2 ++ t ++ rest) 0 =
      (w0.length, w0.length + p.length, none) := by
    have := getField_append [] w0 p (w1 ++ v ++ w2 ++ t ++ rest) hw0 hp hpne
      (by simpa [List.append_assoc] using wsHead w1 (v ++ w2 ++ t ++ rest) hw1 hw1ne)
    simpa [List.append_assoc] using this
  have e2 : getField (w0 ++ p ++ w1 ++ v ++ w2 ++ t ++ rest) (w0.length + p.length) =
      (w0.length + p.length + w1.length, w0.length + p.length + w1.length + v.length,
        none) := by
    have := getField_append (w0 ++ p) w1 v (w2 ++ t ++ rest) hw1 hv hvne
      (by simpa [List.append_assoc] using wsHead w2 (t ++ rest) hw2 hw2ne)
    simpa [List.append_assoc] using this
  have e3 : getField (w0 ++ p ++ w1 ++ v ++ w2 ++ t ++ rest)
      (w0.length + p.length + w1.length + v.length) =
      (w0.length + p.length + w1.length + v.length + w2.length,
        w0.length + p.length + w1.length + v.length + w2.length + t.length, none) := by
    have := getField_append (w0 ++ p ++ w1 ++ v) w2 t rest hw2 ht htne hrest
    simpa [List.append_assoc, Nat.add_assoc] using this
  unfold recFields
  simp only [e1, e2, e3]

/-- The three slices `ParseRecBytes` takes on a line of three fields. -/
theorem slices_three (w0 p w1 v w2 t rest : List Byte) :
    slice (w0 ++ p ++ w1 ++ v ++ w2 ++ t ++ rest) w0.length (w0.length + p.length) = some p ∧
    slice (w0 ++ p ++ w1 ++ v ++ w2 ++ t ++ rest) (w0.length + p.length + w1.length)
      (w0.length + p.length + w1.length + v.length) = some v ∧
    slice (w0 ++ p ++ w1 ++ v ++ w2 ++ t ++ rest)
      (w0.length + p.length + w1.length + v.length + w2.length)
      (w0.length + p.length + w1.length + v.length + w2.length + t.length) = some t := by
  refine ⟨?_, ?_, ?_⟩
  · have := slice_append w0 p (w1 ++ v ++ w2 ++ t ++ rest)
    simpa [List.append_assoc] using this
  · have := slice_append (w0 ++ p ++ w1) v (w2 ++ t ++ rest)
    simpa [List.append_assoc, Nat.add_assoc] using this
  · have := slice_append (w0 ++ p ++ w1 ++ v ++ w2) t rest
    simpa [List.append_assoc, Nat.add_assoc] using this

/-- Parsing a line of three fields without normalization. -/
theorem ParseRecBytes_three (validChar : Byte → Bool) (w0 p w1 v w2 t rest : List Byte)
    (now : Nat)
    (hw0 : WsRun w0) (hp : NoWs p) (hpne : p ≠ [])
    (hw1 : WsRun w1) (hw1ne : w1 ≠ []) (hv : NoWs v) (hvne : v ≠ [])
    (hw2 : WsRun w2) (hw2ne : w2 ≠ []) (ht : NoWs t) (htne : t ≠ [])
    (hrest : WsOrEnd rest) :
    ParseRecBytes validChar (w0 ++ p ++ w1 ++ v ++ w2 ++ t ++ rest) false now =
      some (some { Path := p, Val := 0, RawVal := v, Time := 0, RawTime := t,
                   Received := now }, none) := by
  obtain ⟨s1, s2, s3⟩ := slices_three w0 p w1 v w2 t rest
  unfold ParseRecBytes
  rw [recFields_three w0 p w1 v w2 t rest hw0 hp hpne hw1 hw1ne hv hvne hw2 hw2ne ht htne hrest]
  simp only [s1, s2, s3]
  rfl

/-! ## Counting fields -/

theorem dropWhile_head {α : Type} (p : α → Bool) (l : List α) :
    ∀ c, (l.dropWhile p).head? = some c → p c = false := by
  induction l with
  | nil => intro c h; simp at h
  | cons x xs ih =>
    intro c h
    by_cases hx : p x = true
    · rw [List.dropWhile_cons, if_pos hx] at h; exact ih c h
    · rw [List.dropWhile_cons, if_neg hx] at h
      simp at h; subst h; simpa using hx

theorem countFieldsAux_true_dropWhile (l : List Byte) :
    countFieldsAux true l = countFieldsAux true (l.dropWhile isWhitespace) := by
  induction l with
  | nil => rfl
  | cons c cs ih =>
    by_cases hc : isWhitespace c = true
    · rw [List.dropWhile_cons, if_pos hc, ← ih]
      simp [countFieldsAux, hc]
    · rw [List.dropWhile_cons, if_neg hc]

theorem countFieldsAux_false_dropWhile (l : List Byte) :
    countFieldsAux false l =
      countFieldsAux false (l.dropWhile (fun c => !isWhitespace c)) := by
  induction l with
  | nil => rfl
  | cons c cs ih =>
    by_cases hc : isWhitespace c = true
    · rw [List.dropWhile_cons, if_neg (by simp [hc])]
    · have hc2 : isWhitespace c = false := by simpa using hc
      rw [List.dropWhile_cons, if_pos (by simp [hc2]), ← ih]
      simp [countFieldsAux, hc2]

theorem countFieldsAux_wsOrEnd (x : List Byte) (hx : WsOrEnd x) :
    countFieldsAux false x = countFieldsAux true x := by
  cases x with
  | nil => rfl
  | cons c cs => simp [countFieldsAux, hx c rfl]

/-- Skipping the leading whitespace and then one field removes one field. -/
theorem countFields_split (l : List Byte) (hne : l.dropWhile isWhitespace ≠ []) :
    countFields l =
      countFields ((l.dropWhile isWhitespace).dropWhile (fun c => !isWhitespace c)) + 1 := by
  unfold countFields
  rw [countFieldsAux_true_dropWhile l]
  obtain ⟨c, l1, hl⟩ := List.exists_cons_of_ne_nil hne
  have hc : isWhitespace c = false := dropWhile_head isWhitespace l c (by rw [hl]; rfl)
  rw [hl, List.dropWhile_cons, if_pos (by simp [hc])]
  have h1 : countFieldsAux true (l1.dropWhile (fun c => !isWhitespace c)) =
      countFieldsAux false l1 := by
    rw [countFieldsAux_false_dropWhile l1]
    refine (countFieldsAux_wsOrEnd _ ?_).symm
    intro x hx
    have := dropWhile_head (fun c => !isWhitespace c) l1 x hx
    simpa using this
  rw [h1]
  simp [countFieldsAux, hc]
  omega

/-- A successful `getField` ends inside `s` and leaves one field fewer after
its end than there were after its start. -/
theorem getField_count (s : List Byte) (st : Nat) (h : st ≤ s.length)
    (hok : (getField s st).2.2 = none) :
    (getField s st).2.1 ≤ s.length ∧
      countFields (s.drop (getField s st).2.1) + 1 = countFields (s.drop st) := by
  by_cases heq : st = s.length
  · simp [getField, heq] at hok
  have hlt : st < s.length := by omega
  rw [getField_spec s st hlt] at hok ⊢
  generalize hk : ((s.drop st).takeWhile isWhitespace).length = k at hok ⊢
  by_cases hend : st + k = s.length
  · simp [hend] at hok
  simp only [if_neg hend]
  have hdk : s.drop (st + k) = (s.drop st).dropWhile isWhitespace := by
    rw [← drop_takeWhile_length, hk, List.drop_drop]
  have hkle : k ≤ (s.drop st).length := by
    rw [← hk]; exact (List.takeWhile_sublist _).length_le
  rw [List.length_drop] at hkle
  have hne : (s.drop st).dropWhile isWhitespace ≠ [] := by
    rw [← hdk]
    intro hnil
    have := congrArg List.length hnil
    simp at this; omega
  generalize hm : ((s.drop (st + k)).takeWhile (fun c => !isWhitespace c)).length = m
  have hmle : m ≤ (s.drop (st + k)).length := by
    rw [← hm]; exact (List.takeWhile_sublist _).length_le
  rw [List.length_drop] at hmle
  refine ⟨by omega, ?_⟩
  have hdm : s.drop (st + k + m) =
      ((s.drop st).dropWhile isWhitespace).dropWhile (fun c => !isWhitespace c) := by
    rw [← hdk, ← drop_takeWhile_length, hm, List.drop_drop]
  rw [hdm, countFields_split (s.drop st) hne]

/-! ## The loops of `normalizePathBytes` -/

theorem normStart_eq (s : List Byte) :
    ∀ (fuel start : Nat), s.length - start ≤ fuel →
      normStart s fuel start = start + ((s.drop start).takeWhile isDot).length
  | 0, start, h => by
    have : s.length ≤ start := by omega
    simp [normStart, List.drop_eq_nil_of_le this]
  | fuel + 1, start, h => by
    unfold normStart
    by_cases hlt : start < s.length
    · rw [dif_pos hlt, List.drop_eq_getElem_cons hlt]
      by_cases hw : s[start] = dot
      · rw [if_pos hw, normStart_eq s fuel (start + 1) (by omega)]
        simp [-List.getElem_cons_drop, List.takeWhile_cons, isDot, hw]
        omega
      · rw [if_neg hw]
        simp [-List.getElem_cons_drop, List.takeWhile_cons, isDot, hw]
    · rw [dif_neg hlt]
      simp [List.drop_eq_nil_of_le (Nat.le_of_not_lt hlt)]

theorem readAt_nat (s : List Byte) (i : Nat) : readAt s (i : Int) = s[i]? := by
  simp [readAt]

theorem readAt_succ (s : List Byte) (i : Nat) : readAt s ((i : Int) + 1) = s[i + 1]? := by
  have h : ((i : Int) + 1) = ((i + 1 : Nat) : Int) := by push_cast; rfl
  rw [h, readAt_nat]

/-- The backward loop stops at the last byte that is not a dot. -/
theorem normEnd_eq (u d : List Byte) (x : Byte) (start : Nat) (hx : x ≠ dot)
    (hd : ∀ c ∈ d, c = dot) (hstart : start ≤ u.length) :
    ∀ (j fuel : Nat), j ≤ d.length → j + 1 ≤ fuel →
      normEnd (u ++ x :: d) start fuel ((u.length + j : Nat) : Int) =
        some ((u.length : Nat) : Int)
  | 0, fuel + 1, _, _ => by
    unfold normEnd
    rw [if_pos (by simp; omega), readAt_nat]
    have hget : (u ++ x :: d)[u.length + 0]? = some x := by
      rw [List.getElem?_append_right (by omega)]
      simp
    rw [hget]
    simp [hx]
  | j + 1, fuel + 1, hj, hf => by
    unfold normEnd
    rw [if_pos (by simp; omega), readAt_nat]
    have hget : (u ++ x :: d)[u.length + (j + 1)]? = some dot := by
      rw [List.getElem?_append_right (by omega)]
      have hjd : j < d.length := by omega
      simp [List.getElem?_eq_getElem hjd]
      exact hd _ (List.getElem_mem _)
    rw [hget]
    have := normEnd_eq u d x start hx hd hstart j fuel (by omega) (by omega)
    simp only [Option.some_bind, if_true]
    rw [← this]
    congr 1
    push_cast
    omega

theorem lastNotDot_tail (c : Byte) (u : List Byte) (h : LastNotDot (c :: u)) (hu : u ≠ []) :
    LastNotDot u := by
  intro x hxl
  apply h
  obtain ⟨a, r, rfl⟩ := List.exists_cons_of_ne_nil hu
  simpa [List.getLast?_cons_cons] using hxl

theorem lastNotDot_dot_cons (u : List Byte) (h : LastNotDot (dot :: u)) : u ≠ [] := by
  intro hu
  subst hu
  exact h dot rfl rfl

/-- The checking loop computes `needsNorm` of the stripped path. -/
theorem normCheck_eq (validChar : Byte → Bool) (post : List Byte) :
    ∀ (u pre : List Byte) (fuel : Nat) (e : Int), LastNotDot u → u.length ≤ fuel →
      e + 1 = ((pre.length + u.length : Nat) : Int) →
      normCheck validChar (pre ++ (u ++ post)) e fuel pre.length = some (needsNorm validChar u)
  | [], pre, fuel, e, _, _, he => by
    cases fuel with
    | zero => rfl
    | succ f =>
      unfold normCheck
      rw [if_neg (by simp at he; omega)]
      rfl
  | c :: u, pre, 0, e, _, hf, _ => by simp at hf
  | c :: u, pre, fuel + 1, e, hl, hf, he => by
    unfold normCheck
    rw [if_pos (by simp at he; omega), readAt_nat, readAt_succ]
    have hget : (pre ++ (c :: u ++ post))[pre.length]? = some c := by
      rw [List.getElem?_append_right (le_refl _)]
      simp
    have hrec : normCheck validChar (pre ++ (c :: u ++ post)) e fuel (pre.length + 1) =
        some (needsNorm validChar u) := by
      by_cases hu : u = []
      · subst hu
        cases fuel with
        | zero => rfl
        | succ f =>
          unfold normCheck
          rw [if_neg (by simp at he; push_cast; omega)]
          rfl
      · have := normCheck_eq validChar post u (pre ++ [c]) fuel e
          (lastNotDot_tail c u hl hu) (by simp at hf; omega) (by simp at he ⊢; omega)
        simpa using this
    rw [hget]
    simp only [Option.some_bind]
    by_cases hc : c = dot
    · subst hc
      obtain ⟨d, u', rfl⟩ := List.exists_cons_of_ne_nil (lastNotDot_dot_cons u hl)
      have hget2 : (pre ++ (dot :: d :: u' ++ post))[pre.length + 1]? = some d := by
        rw [List.getElem?_append_right (by omega)]
        simp
      rw [hget2, hrec]
      by_cases hd : d = dot
      · simp [needsNorm, hd]
      · cases hv : validChar dot <;> simp [needsNorm, hd, hv]
    · rw [if_neg hc, hrec]
      by_cases hv : validChar c = true
      · simp [needsNorm, hc, hv]
      · simp [needsNorm, hc, hv]

/-- The building loop appends the reference normalization of the stripped
path to `res`. -/
theorem normBuild_eq (validChar : Byte → Bool) (post : List Byte) :
    ∀ (u pre : List Byte) (fuel : Nat) (e : Int) (res : List Byte), LastNotDot u →
      u.length ≤ fuel → e + 1 = ((pre.length + u.length : Nat) : Int) →
      normBuild validChar (pre ++ (u ++ post)) e fuel pre.length res =
        some (res ++ replaceInvalid validChar (dropDotBeforeDot u))
  | [], pre, fuel, e, res, _, _, he => by
    cases fuel with
    | zero => simp [normBuild, dropDotBeforeDot, replaceInvalid]
    | succ f =>
      unfold normBuild
      rw [if_neg (by simp at he; omega)]
      simp [dropDotBeforeDot, replaceInvalid]
  | c :: u, pre, 0, e, res, _, hf, _ => by simp at hf
  | c :: u, pre, fuel + 1, e, res, hl, hf, he => by
    unfold normBuild
    rw [if_pos (by simp at he; omega), readAt_nat, readAt_succ]
    have hget : (pre ++ (c :: u ++ post))[pre.length]? = some c := by
      rw [List.getElem?_append_right (le_refl _)]
      simp
    have hrec : ∀ res', normBuild validChar (pre ++ (c :: u ++ post)) e fuel (pre.length + 1)
        res' = some (res' ++ replaceInvalid validChar (dropDotBeforeDot u)) := by
      intro res'
      by_cases hu : u = []
      · subst hu
        cases fuel with
        | zero => simp [normBuild, dropDotBeforeDot, replaceInvalid]
        | succ f =>
          unfold normBuild
          rw [if_neg (by simp at he; push_cast; omega)]
          simp [dropDotBeforeDot, replaceInvalid]
      · have := normBuild_eq validChar post u (pre ++ [c]) fuel e res'
          (lastNotDot_tail c u hl hu) (by simp at hf; omega) (by simp at he ⊢; omega)
        simpa using this
    rw [hget]
    simp only [Option.some_bind]
    by_cases hc : c = dot
    · subst hc
      obtain ⟨d, u', rfl⟩ := List.exists_cons_of_ne_nil (lastNotDot_dot_cons u hl)
      have hget2 : (pre ++ (dot :: d :: u' ++ post))[pre.length + 1]? = some d := by
        rw [List.getElem?_append_right (by omega)]
        simp
      rw [hget2]
      simp only [Option.some_bind, if_true, hrec]
      by_cases hd : d = dot
      · subst hd
        simp [dropDotBeforeDot]
      · cases hv : validChar dot <;>
          simp [dropDotBeforeDot, replaceInvalid, hd, hv]
    · rw [if_neg hc]
      simp only [hrec]
      cases hv : validChar c <;> simp [dropDotBeforeDot, replaceInvalid, hc, hv]

/-- When nothing needs normalization the reference result is the stripped
path itself. -/
theorem ref_of_not_needsNorm (validChar : Byte → Bool) :
    ∀ (u : List Byte), needsNorm validChar u = false →
      replaceInvalid validChar (dropDotBeforeDot u) = u
  | [], _ => rfl
  | c :: u, h => by
    simp only [needsNorm, Bool.or_eq_false_iff, Bool.and_eq_false_iff] at h
    obtain ⟨⟨h1, h2⟩, h3⟩ := h
    have ih := ref_of_not_needsNorm validChar u h3
    have hv : validChar c = true := by simpa using h2
    have hnd : ¬(c = dot ∧ u.head? = some dot) := by
      rintro ⟨hc, hh⟩
      rcases h1 with h1 | h1
      · simp [hc] at h1
      · simp [hh] at h1
    unfold dropDotBeforeDot
    rw [if_neg hnd]
    simp only [replaceInvalid, List.map_cons, hv, if_true] at ih ⊢
    rw [ih]

/-- The result of `normalizePathBytes` on leading dots, a stripped path and
trailing dots. -/
theorem normalizePathBytes_decomp (validChar : Byte → Bool) (ld m td : List Byte)
    (hld : ∀ c ∈ ld, c = dot) (htd : ∀ c ∈ td, c = dot) (hne : m ≠ [])
    (hhead : HeadNotDot m) (hlast : LastNotDot m) :
    normalizePathBytes validChar (ld ++ (m ++ td)) =
      some (replaceInvalid validChar (dropDotBeforeDot m),
        needsNorm validChar m || !(ld.isEmpty && td.isEmpty), none) := by
  have hmlen : 0 < m.length := List.length_pos.mpr hne
  have hlen : (ld ++ (m ++ td)).length = ld.length + (m.length + td.length) := by simp
  have hstart : normStart (ld ++ (m ++ td)) (ld ++ (m ++ td)).length 0 = ld.length := by
    rw [normStart_eq _ _ 0 (by omega)]
    simp only [List.drop_zero, Nat.zero_add]
    rw [takeWhile_append_stop isDot ld (m ++ td) (by intro x hx; simp [isDot, hld x hx])]
    intro c hc
    obtain ⟨a, m', rfl⟩ := List.exists_cons_of_ne_nil hne
    simp at hc; subst hc
    simpa [isDot] using hhead a rfl
  obtain ⟨x, hx⟩ : ∃ x, m.getLast? = some x := by
    cases hgl : m.getLast? with
    | none => exact absurd (List.getLast?_eq_none_iff.mp hgl) hne
    | some x => exact ⟨x, rfl⟩
  obtain ⟨u, hu⟩ : ∃ u, m = u ++ [x] := by
    rcases List.eq_nil_or_concat m with h | ⟨u, y, h⟩
    · exact absurd h hne
    · subst h; simp at hx; subst hx; exact ⟨u, by simp⟩
  have hend : normEnd (ld ++ (m ++ td)) ld.length (ld ++ (m ++ td)).length
      (((ld ++ (m ++ td)).length : Int) - 1) =
      some (((ld.length + m.length : Nat) : Int) - 1) := by
    have := normEnd_eq (ld ++ u) td x ld.length (hlast x hx) htd (by simp) td.length
      (ld ++ (m ++ td)).length (le_refl _) (by omega)
    have e1 : (ld ++ u) ++ x :: td = ld ++ (m ++ td) := by simp [hu]
    rw [e1] at this
    have e2 : ((((ld ++ (m ++ td)).length : Nat) : Int) - 1) =
        (((ld ++ u).length + td.length : Nat) : Int) := by
      simp [hu]; omega
    have e3 : (((ld.length + m.length : Nat) : Int) - 1) = (((ld ++ u).length : Nat) : Int) := by
      simp [hu]; omega
    rw [e2, e3]; exact this
  have hlenne : ¬ (ld ++ (m ++ td)).length = 0 := by omega
  have hstartne : ¬ ld.length = (ld ++ (m ++ td)).length := by omega
  have hcheck := normCheck_eq validChar td m ld (ld ++ (m ++ td)).length
    (((ld.length + m.length : Nat) : Int) - 1) hlast (by omega) (by omega)
  have hbuild := normBuild_eq validChar td m ld (ld ++ (m ++ td)).length
    (((ld.length + m.length : Nat) : Int) - 1) [] hlast (by omega) (by omega)
  unfold normalizePathBytes
  rw [if_neg hlenne]
  simp only [hstart, if_neg hstartne, hend, Option.some_bind, hcheck, hbuild]
  cases hn : needsNorm validChar m with
  | true => simp
  | false =>
    simp only [Bool.false_eq_true, if_false, Bool.false_or]
    rw [ref_of_not_needsNorm validChar m hn]
    by_cases hboth : ld.length = 0 ∧
        (((ld.length + m.length : Nat) : Int) - 1) = ((ld ++ (m ++ td)).length : Int) - 1
    · rw [if_pos hboth]
      obtain ⟨h1, h2⟩ := hboth
      have hl0 : ld = [] := List.length_eq_zero.mp h1
      have ht0 : td = [] := by
        apply List.length_eq_zero.mp
        rw [hlen] at h2; push_cast at h2; omega
      subst hl0; subst ht0
      simp
    · rw [if_neg hboth]
      have hsl : slice (ld ++ (m ++ td)) ld.length
          ((((ld.length + m.length : Nat) : Int) - 1 + 1).toNat) = some m := by
        have : ((((ld.length + m.length : Nat) : Int) - 1 + 1).toNat) = ld.length + m.length := by
          omega
        rw [this]; exact slice_append ld m td
      rw [if_pos (by omega), hsl]
      have : (ld.isEmpty && td.isEmpty) = false := by
        by_contra hcon
        apply hboth
        simp at hcon
        obtain ⟨a, b⟩ := hcon
        subst a; subst b
        simp
      simp [this]

/-- A path that holds a byte other than a dot is a run of leading dots, its
stripped path and a run of trailing dots. -/
theorem stripDots_decomp (p : List Byte) (h : ∃ c ∈ p, c ≠ dot) :
    ∃ ld td : List Byte, p = ld ++ (stripDots p ++ td) ∧ (∀ c ∈ ld, c = dot) ∧
      (∀ c ∈ td, c = dot) ∧ stripDots p ≠ [] ∧ HeadNotDot (stripDots p) ∧
      LastNotDot (stripDots p) := by
  have hsplit : p = p.takeWhile isDot ++ p.dropWhile isDot :=
    (List.takeWhile_append_dropWhile isDot p).symm
  have hrsplit : p.dropWhile isDot =
      stripDots p ++ ((p.dropWhile isDot).reverse.takeWhile isDot).reverse := by
    unfold stripDots
    rw [← List.reverse_append, List.takeWhile_append_dropWhile, List.reverse_reverse]
  have hld : ∀ c ∈ p.takeWhile isDot, c = dot := by
    intro c hc
    simpa [isDot] using List.mem_takeWhile_imp hc
  have htd : ∀ c ∈ ((p.dropWhile isDot).reverse.takeWhile isDot).reverse, c = dot := by
    intro c hc
    rw [List.mem_reverse] at hc
    simpa [isDot] using List.mem_takeWhile_imp hc
  have hrne : p.dropWhile isDot ≠ [] := by
    intro hnil
    obtain ⟨c, hc, hcd⟩ := h
    rw [hsplit, hnil, List.append_nil] at hc
    exact hcd (hld c hc)
  have hrhead : HeadNotDot (p.dropWhile isDot) := by
    intro c hc
    simpa [isDot] using dropWhile_head isDot p c hc
  have hmne : stripDots p ≠ [] := by
    intro hnil
    rw [hnil, List.nil_append] at hrsplit
    obtain ⟨a, r, hr⟩ := List.exists_cons_of_ne_nil hrne
    have ha : a ≠ dot := hrhead a (by rw [hr]; rfl)
    exact ha (htd a (by rw [← hrsplit, hr]; simp))
  refine ⟨p.takeWhile isDot, ((p.dropWhile isDot).reverse.takeWhile isDot).reverse, ?_, hld,
    htd, hmne, ?_, ?_⟩
  · rw [← hrsplit]; exact hsplit
  · intro c hc
    apply hrhead c
    obtain ⟨a, r, hr⟩ := List.exists_cons_of_ne_nil hmne
    rw [hrsplit, hr]
    rw [hr] at hc
    simpa using hc
  · intro c hc
    unfold stripDots at hc
    rw [List.getLast?_reverse] at hc
    simpa [isDot] using dropWhile_head isDot _ c hc

/-- A non-empty path made only of dots is rejected. -/
theorem normalizePathBytes_dots (validChar : Byte → Bool) (p : List Byte) (hne : p ≠ [])
    (hdots : ∀ c ∈ p, c = dot) :
    normalizePathBytes validChar p = some ([], true, some "path contains only dots") := by
  have hlen : ¬ p.length = 0 := fun h => hne (List.length_eq_zero.mp h)
  have hstart : normStart p p.length 0 = p.length := by
    rw [normStart_eq p _ 0 (by omega)]
    have : p.takeWhile isDot = p := by
      have := takeWhile_append_stop isDot p [] (by intro x hx; simp [isDot, hdots x hx])
        (by intro c hc; simp at hc)
      simpa using this
    simp [this]
  unfold normalizePathBytes
  rw [if_neg hlen]
  simp only [hstart, if_true]

/-! ## Properties of the reference normalization -/

theorem dropDotBeforeDot_head (c : Byte) (u : List Byte) (hc : c ≠ dot) :
    dropDotBeforeDot (c :: u) = c :: dropDotBeforeDot u := by
  simp [dropDotBeforeDot, hc]

theorem dropDotBeforeDot_getLast? :
    ∀ (u : List Byte), (dropDotBeforeDot u).getLast? = u.getLast?
  | [] => rfl
  | [c] => by simp [dropDotBeforeDot]
  | c :: d :: u => by
    have ih := dropDotBeforeDot_getLast? (d :: u)
    have hne : dropDotBeforeDot (d :: u) ≠ [] := by
      intro hnil
      rw [hnil] at ih
      have := List.getLast?_eq_none_iff.mp ih.symm
      simp at this
    obtain ⟨a, r, hr⟩ := List.exists_cons_of_ne_nil hne
    unfold dropDotBeforeDot
    by_cases hcd : c = dot ∧ (d :: u).head? = some dot
    · rw [if_pos hcd, ih, List.getLast?_cons_cons]
    · rw [if_neg hcd, hr, List.getLast?_cons_cons, ← hr, ih, List.getLast?_cons_cons]

theorem dropDotBeforeDot_noAdjacent :
    ∀ (u : List Byte), NoAdjacentDots (dropDotBeforeDot u)
  | [] => by simp [dropDotBeforeDot, NoAdjacentDots]
  | c :: u => by
    have ih := dropDotBeforeDot_noAdjacent u
    unfold dropDotBeforeDot
    by_cases hcd : c = dot ∧ u.head? = some dot
    · rw [if_pos hcd]; exact ih
    · rw [if_neg hcd]
      unfold NoAdjacentDots at ih ⊢
      rw [List.chain'_cons']
      refine ⟨?_, ih⟩
      intro y hy
      rintro ⟨hc, hyd⟩
      apply hcd
      refine ⟨hc, ?_⟩
      cases u with
      | nil => simp [dropDotBeforeDot] at hy
      | cons d u' =>
        by_cases hd : d = dot
        · simp [hd]
        · rw [dropDotBeforeDot_head d u' hd] at hy
          simp at hy
          exact absurd (hy ▸ hyd) hd

theorem replaceInvalid_eq_dot (validChar : Byte → Bool) (c : Byte)
    (h : (if validChar c then c else underscore) = dot) : c = dot := by
  by_cases hv : validChar c = true
  · simpa [hv] using h
  · simp [hv, underscore, dot] at h

theorem dropDotBeforeDot_of_noAdjacent :
    ∀ (u : List Byte), NoAdjacentDots u → dropDotBeforeDot u = u
  | [], _ => rfl
  | c :: u, h => by
    unfold NoAdjacentDots at h
    rw [List.chain'_cons'] at h
    have ih := dropDotBeforeDot_of_noAdjacent u h.2
    unfold dropDotBeforeDot
    rw [if_neg (by
      rintro ⟨hc, hh⟩
      exact h.1 dot (by simp [hh]) ⟨hc, rfl⟩), ih]

theorem replaceInvalid_idem (validChar : Byte → Bool) (l : List Byte) :
    replaceInvalid validChar (replaceInvalid validChar l) = replaceInvalid validChar l := by
  unfold replaceInvalid
  rw [List.map_map]
  apply List.map_congr_left
  intro c _
  by_cases hv : validChar c = true
  · simp [hv]
  · simp [hv]

/-- The reference normalization of a stripped path is non-empty, neither
starts nor ends with a dot and has no two adjacent dots. -/
theorem replaceInvalid_dropDot_props (validChar : Byte → Bool) (m : List Byte) (hne : m ≠ [])
    (hhead : HeadNotDot m) (hlast : LastNotDot m) :
    replaceInvalid validChar (dropDotBeforeDot m) ≠ [] ∧
      HeadNotDot (replaceInvalid validChar (dropDotBeforeDot m)) ∧
      LastNotDot (replaceInvalid validChar (dropDotBeforeDot m)) ∧
      NoAdjacentDots (replaceInvalid validChar (dropDotBeforeDot m)) := by
  obtain ⟨a, m', rfl⟩ := List.exists_cons_of_ne_nil hne
  have ha : a ≠ dot := hhead a rfl
  refine ⟨?_, ?_, ?_, ?_⟩
  · rw [dropDotBeforeDot_head a m' ha]; simp [replaceInvalid]
  · intro c hc
    rw [dropDotBeforeDot_head a m' ha] at hc
    simp [replaceInvalid] at hc
    intro hcd
    exact ha (replaceInvalid_eq_dot validChar a (hc.trans hcd))
  · intro c hc
    unfold replaceInvalid at hc
    rw [List.getLast?_map, dropDotBeforeDot_getLast?] at hc
    cases hl : (a :: m').getLast? with
    | none => rw [hl] at hc; simp at hc
    | some x =>
      rw [hl] at hc
      simp at hc
      intro hcd
      exact hlast x hl (replaceInvalid_eq_dot validChar x (hc.trans hcd))
  · unfold NoAdjacentDots replaceInvalid
    rw [List.chain'_map]
    refine List.Chain'.imp ?_ (dropDotBeforeDot_noAdjacent (a :: m'))
    intro x y hxy hboth
    exact hxy ⟨replaceInvalid_eq_dot validChar x hboth.1,
      replaceInvalid_eq_dot validChar y hboth.2⟩

theorem replaceInvalid_valid (validChar : Byte → Bool) (l : List Byte)
    (hu : validChar underscore = true) : ∀ c ∈ replaceInvalid validChar l, validChar c = true := by
  intro c hc
  unfold replaceInvalid at hc
  rw [List.mem_map] at hc
  obtain ⟨x, _, hx⟩ := hc
  by_cases hv : validChar x = true
  · simp [hv] at hx; rw [← hx]; exact hv
  · simp [hv] at hx; rw [← hx]; exact hu

/-- The result of `normalizePathBytes` on a path that holds a byte other
than a dot. -/
theorem normalizePathBytes_of_nondot (validChar : Byte → Bool) (p : List Byte)
    (h : ∃ c ∈ p, c ≠ dot) :
    ∃ changed, normalizePathBytes validChar p = some (normalizeRef validChar p, changed, none) := by
  obtain ⟨ld, td, hp, hld, htd, hne, hhead, hlast⟩ := stripDots_decomp p h
  have := normalizePathBytes_decomp validChar ld (stripDots p) td hld htd hne hhead hlast
  rw [← hp] at this
  exact ⟨_, this⟩

/-! ## `recFields` and `ParseRecBytes` on arbitrary input -/

/-- A line on which `recFields` succeeds has at least three fields. -/
theorem recFields_ok_count (s : List Byte) (h : (recFields s).retErr = none) :
    3 ≤ countFields s := by
  unfold recFields at h
  rcases h0 : getField s 0 with ⟨a0, b0, e0⟩
  rw [h0] at h
  cases e0 with
  | some err => simp at h
  | none =>
    simp only at h
    have c0 := getField_count s 0 (Nat.zero_le _) (by rw [h0])
    rw [h0] at c0
    simp only [List.drop_zero] at c0
    rcases h1 : getField s b0 with ⟨a1, b1, e1⟩
    rw [h1] at h
    cases e1 with
    | some err => simp at h
    | none =>
      simp only at h
      have c1 := getField_count s b0 c0.1 (by rw [h1])
      rw [h1] at c1
      simp only at c1
      rcases h2 : getField s b1 with ⟨a2, b2, e2⟩
      rw [h2] at h
      cases e2 with
      | some err => simp at h
      | none =>
        have c2 := getField_count s b1 c1.1 (by rw [h2])
        rw [h2] at c2
        simp only at c2
        omega

/-- The path bounds of `recFields` are those of the first `getField`. -/
theorem recFields_path (s : List Byte) (a b : Nat) (h0 : getField s 0 = (a, b, none)) :
    (recFields s).pathStart = a ∧ (recFields s).pathEnd = b := by
  unfold recFields
  rw [h0]
  simp only
  rcases h1 : getField s b with ⟨a1, b1, e1⟩
  cases e1 with
  | some err => simp
  | none =>
    simp only
    rcases h2 : getField s b1 with ⟨a2, b2, e2⟩
    cases e2 with
    | some err => simp
    | none => simp

/-- An error of `recFields` is returned wrapped, with a nil record. -/
theorem ParseRecBytes_fields_error (validChar : Byte → Bool) (s : List Byte) (normalize : Bool)
    (now : Nat) (err : String) (h : (recFields s).retErr = some err) :
    ParseRecBytes validChar s normalize now =
      some (none, some (wrap err "failed to break record into fields")) := by
  unfold ParseRecBytes
  simp only [h]

/-! ## Fields of a successfully parsed record -/

theorem take_takeWhile_length {α : Type} (p : α → Bool) (l : List α) :
    l.take (l.takeWhile p).length = l.takeWhile p := by
  induction l with
  | nil => rfl
  | cons c cs ih =>
    by_cases hc : p c = true
    · simp [List.takeWhile_cons, hc, ih]
    · simp [List.takeWhile_cons, hc]

/-- A successful `getField` delimits a non-empty field free of whitespace. -/
theorem getField_ok (s : List Byte) (st : Nat) (h : st ≤ s.length)
    (hok : (getField s st).2.2 = none) :
    ∃ f, f ≠ [] ∧ NoWs f ∧ slice s (getField s st).1 (getField s st).2.1 = some f := by
  by_cases heq : st = s.length
  · simp [getField, heq] at hok
  have hlt : st < s.length := by omega
  rw [getField_spec s st hlt] at hok ⊢
  generalize hk : ((s.drop st).takeWhile isWhitespace).length = k at hok ⊢
  by_cases hend : st + k = s.length
  · simp [hend] at hok
  simp only [if_neg hend]
  have hkle : k ≤ (s.drop st).length := by
    rw [← hk]; exact (List.takeWhile_sublist _).length_le
  rw [List.length_drop] at hkle
  have hlt2 : st + k < s.length := by omega
  have hstop : isWhitespace s[st + k] = false := by
    have h1 : ((s.drop st).takeWhile isWhitespace).length < (s.drop st).length := by
      rw [hk, List.length_drop]; omega
    have := takeWhile_length_stop isWhitespace (s.drop st) h1
    simpa [hk] using this
  refine ⟨(s.drop (st + k)).takeWhile (fun c => !isWhitespace c), ?_, ?_, ?_⟩
  · rw [List.drop_eq_getElem_cons hlt2, List.takeWhile_cons]
    simp [hstop]
  · intro c hc
    simpa using List.mem_takeWhile_imp hc
  · have hmle : ((s.drop (st + k)).takeWhile (fun c => !isWhitespace c)).length ≤
        (s.drop (st + k)).length := (List.takeWhile_sublist _).length_le
    rw [List.length_drop] at hmle
    unfold slice
    rw [if_pos ⟨by omega, by omega⟩, Nat.add_sub_cancel_left, take_takeWhile_length]

/-- When `recFields` succeeds its three pairs of bounds delimit non-empty
fields free of whitespace. -/
theorem recFields_ok (s : List Byte) (h : (recFields s).retErr = none) :
    ∃ p v t, (p ≠ [] ∧ NoWs p) ∧ (v ≠ [] ∧ NoWs v) ∧ (t ≠ [] ∧ NoWs t) ∧
      slice s (recFields s).pathStart (recFields s).pathEnd = some p ∧
      slice s (recFields s).valStart (recFields s).valEnd = some v ∧
      slice s (recFields s).timeStart (recFields s).timeEnd = some t := by
  unfold recFields at h ⊢
  rcases h0 : getField s 0 with ⟨a0, b0, e0⟩
  rw [h0] at h
  cases e0 with
  | some err => simp at h
  | none =>
    simp only at h ⊢
    have c0 := getField_count s 0 (Nat.zero_le _) (by rw [h0])
    obtain ⟨p, hp1, hp2, hp3⟩ := getField_ok s 0 (Nat.zero_le _) (by rw [h0])
    rw [h0] at c0 hp3
    rcases h1 : getField s b0 with ⟨a1, b1, e1⟩
    rw [h1] at h
    cases e1 with
    | some err => simp at h
    | none =>
      simp only at h ⊢
      have c1 := getField_count s b0 c0.1 (by rw [h1])
      obtain ⟨v, hv1, hv2, hv3⟩ := getField_ok s b0 c0.1 (by rw [h1])
      rw [h1] at c1 hv3
      rcases h2 : getField s b1 with ⟨a2, b2, e2⟩
      rw [h2] at h
      cases e2 with
      | some err => simp at h
      | none =>
        simp only
        obtain ⟨t, ht1, ht2, ht3⟩ := getField_ok s b1 c1.1 (by rw [h2])
        rw [h2] at ht3
        exact ⟨p, v, t, ⟨hp1, hp2⟩, ⟨hv1, hv2⟩, ⟨ht1, ht2⟩, hp3, hv3, ht3⟩

theorem mem_stripDots (p : List Byte) (c : Byte) (h : c ∈ stripDots p) : c ∈ p := by
  unfold stripDots at h
  rw [List.mem_reverse] at h
  have h1 := (List.dropWhile_sublist isDot).subset h
  rw [List.mem_reverse] at h1
  exact (List.dropWhile_sublist isDot).subset h1

theorem mem_dropDotBeforeDot :
    ∀ (u : List Byte) (c : Byte), c ∈ dropDotBeforeDot u → c ∈ u
  | [], c, h => by simp [dropDotBeforeDot] at h
  | a :: u, c, h => by
    unfold dropDotBeforeDot at h
    by_cases hcd : a = dot ∧ u.head? = some dot
    · rw [if_pos hcd] at h
      exact List.mem_cons_of_mem _ (mem_dropDotBeforeDot u c h)
    · rw [if_neg hcd] at h
      rcases List.mem_cons.mp h with h | h
      · rw [h]; exact List.mem_cons_self _ _
      · exact List.mem_cons_of_mem _ (mem_dropDotBeforeDot u c h)

/-- The reference normalization of a path free of whitespace is free of
whitespace. -/
theorem normalizeRef_noWs (validChar : Byte → Bool) (p : List Byte) (hp : NoWs p) :
    NoWs (normalizeRef validChar p) := by
  intro c hc
  unfold normalizeRef replaceInvalid at hc
  rw [List.mem_map] at hc
  obtain ⟨x, hx, hxc⟩ := hc
  by_cases hv : validChar x = true
  · simp [hv] at hxc
    rw [← hxc]
    exact hp x (mem_stripDots p x (mem_dropDotBeforeDot _ x hx))
  · simp [hv] at hxc
    rw [← hxc]; decide

/-- The record of a successful `ParseRecBytes` has three non-empty fields
free of whitespace, no decoded value or time, and the clock value. -/
theorem ParseRecBytes_ok_fields (validChar : Byte → Bool) (s : List Byte) (normalize : Bool)
    (now : Nat) (r : RecBytes)
    (h : ParseRecBytes validChar s normalize now = some (some r, none)) :
    (r.Path ≠ [] ∧ NoWs r.Path) ∧ (r.RawVal ≠ [] ∧ NoWs r.RawVal) ∧
      (r.RawTime ≠ [] ∧ NoWs r.RawTime) ∧ r.Val = 0 ∧ r.Time = 0 ∧ r.Received = now := by
  cases hre : (recFields s).retErr with
  | some err =>
    rw [ParseRecBytes_fields_error validChar s normalize now err hre] at h
    simp at h
  | none =>
    obtain ⟨p, v, t, hp, hv, ht, sp, sv, st⟩ := recFields_ok s hre
    unfold ParseRecBytes at h
    simp only [hre, sp, sv, st] at h
    cases normalize with
    | false =>
      simp at h
      subst h
      exact ⟨hp, hv, ht, rfl, rfl, rfl⟩
    | true =>
      simp only [if_true, Option.some_bind] at h
      by_cases hnd : ∃ c ∈ p, c ≠ dot
      · obtain ⟨changed, hn⟩ := normalizePathBytes_of_nondot validChar p hnd
        rw [hn] at h
        simp at h
        subst h
        obtain ⟨ld, td, _, _, _, hne, hhead, hlast⟩ := stripDots_decomp p hnd
        exact ⟨⟨(replaceInvalid_dropDot_props validChar _ hne hhead hlast).1,
          normalizeRef_noWs validChar p hp.2⟩, hv, ht, rfl, rfl, rfl⟩
      · push_neg at hnd
        rw [normalizePathBytes_dots validChar p hp.1 hnd] at h
        simp at h

/-! ## Routing -/

theorem pushTargets_spec (push : ClusterTarget → RecBytes → GoError) (r : RecBytes) :
    ∀ (cls : List ClusterTarget) (st : RouteState), RouteInv r st →
      RouteInv r (pushTargets push r cls st) ∧
        ∀ t, t ∈ (pushTargets push r cls st).calls ↔ t ∈ st.calls ∨ t ∈ cls
  | [], st, h => ⟨h, by intro t; simp [pushTargets]⟩
  | cl :: cls, st, h => by
    unfold pushTargets
    by_cases hcl : cl ∈ st.pushedTo
    · rw [if_pos hcl]
      obtain ⟨i1, i2⟩ := pushTargets_spec push r cls st h
      refine ⟨i1, ?_⟩
      intro t
      rw [i2 t]
      have hc : cl ∈ st.calls := (h.1 cl).mp hcl
      constructor
      · rintro (h1 | h1)
        · exact Or.inl h1
        · exact Or.inr (List.mem_cons_of_mem _ h1)
      · rintro (h1 | h1)
        · exact Or.inl h1
        · rcases List.mem_cons.mp h1 with h2 | h2
          · exact Or.inl (h2 ▸ hc)
          · exact Or.inr h2
    · rw [if_neg hcl]
      have hnc : cl ∉ st.calls := fun hc => hcl ((h.1 cl).mpr hc)
      have hinv : RouteInv r
          { pushedTo := cl :: st.pushedTo, pushes := st.pushes ++ [(cl, r)],
            logged := match push cl r with
              | some e => st.logged ++ [(cl, e, r.Serialize)]
              | none => st.logged } := by
        refine ⟨?_, ?_, ?_⟩
        · intro t
          simp only [RouteState.calls, List.map_append, List.map_cons, List.map_nil,
            List.mem_append, List.mem_cons, List.mem_singleton, List.not_mem_nil, or_false]
          rw [h.1 t]
          simp only [RouteState.calls]
          tauto
        · simp only [RouteState.calls, List.map_append, List.map_cons, List.map_nil]
          rw [List.nodup_append]
          refine ⟨h.2.1, by simp, ?_⟩
          intro a ha hb
          simp at hb
          subst hb
          exact hnc ha
        · intro x hx
          simp only [List.mem_append, List.mem_singleton] at hx
          rcases hx with hx | hx
          · exact h.2.2 x hx
          · rw [hx]
      obtain ⟨i1, i2⟩ := pushTargets_spec push r cls _ hinv
      refine ⟨i1, ?_⟩
      intro t
      rw [i2 t]
      simp only [RouteState.calls, List.map_append, List.map_cons, List.map_nil,
        List.mem_append, List.mem_cons, List.mem_singleton, List.not_mem_nil, or_false]
      tauto

theorem dispatched_nil (r : RecBytes) (t : ClusterTarget) : ¬Dispatched r [] t := by
  rintro ⟨pre, rl, post, h, _⟩
  cases pre <;> simp at h

theorem dispatched_cons (r : RecBytes) (rl : Rule) (rls : List Rule) (t : ClusterTarget) :
    Dispatched r (rl :: rls) t ↔
      (rl.MatchBytes r = true ∧ t ∈ rl.Targets) ∨
        (¬(rl.MatchBytes r = true ∧ rl.Continue = false) ∧ Dispatched r rls t) := by
  constructor
  · rintro ⟨pre, rl', post, h, hpre, hm, ht⟩
    cases pre with
    | nil =>
      simp only [List.nil_append, List.cons.injEq] at h
      obtain ⟨rfl, _⟩ := h
      exact Or.inl ⟨hm, ht⟩
    | cons x pre' =>
      simp only [List.cons_append, List.cons.injEq] at h
      obtain ⟨rfl, hrls⟩ := h
      exact Or.inr ⟨hpre rl (by simp), pre', rl', post, hrls,
        fun y hy => hpre y (List.mem_cons_of_mem _ hy), hm, ht⟩
  · rintro (⟨hm, ht⟩ | ⟨hn, pre, rl', post, hrls, hpre, hm, ht⟩)
    · exact ⟨[], rl, rls, rfl, by intro x hx; simp at hx, hm, ht⟩
    · refine ⟨rl :: pre, rl', post, by simp [hrls], ?_, hm, ht⟩
      intro x hx
      rcases List.mem_cons.mp hx with hx | hx
      · rw [hx]; exact hn
      · exact hpre x hx

theorem routeLoop_spec (push : ClusterTarget → RecBytes → GoError) (r : RecBytes) :
    ∀ (rls : List Rule) (st : RouteState), RouteInv r st →
      RouteInv r (routeLoop push r rls st) ∧
        ∀ t, t ∈ (routeLoop push r rls st).calls ↔ t ∈ st.calls ∨ Dispatched r rls t
  | [], st, h => ⟨h, by
      intro t
      simp only [routeLoop]
      constructor
      · exact Or.inl
      · rintro (h1 | h1)
        · exact h1
        · exact absurd h1 (dispatched_nil r t)⟩
  | rl :: rls, st, h => by
    unfold routeLoop
    simp only
    cases hm : rl.MatchBytes r with
    | false =>
      simp only [Bool.false_eq_true, if_false, Bool.false_and]
      obtain ⟨i1, i2⟩ := routeLoop_spec push r rls st h
      refine ⟨i1, ?_⟩
      intro t
      rw [i2 t, dispatched_cons, hm]
      simp
    | true =>
      simp only [if_true, Bool.true_and]
      obtain ⟨j1, j2⟩ := pushTargets_spec push r rl.Targets st h
      cases hc : rl.Continue with
      | false =>
        simp only [Bool.not_false, if_true]
        refine ⟨j1, ?_⟩
        intro t
        rw [j2 t, dispatched_cons, hm, hc]
        simp
      | true =>
        simp only [Bool.not_true, Bool.false_eq_true, if_false]
        obtain ⟨i1, i2⟩ := routeLoop_spec push r rls _ j1
        refine ⟨i1, ?_⟩
        intro t
        rw [i2 t, j2 t, dispatched_cons, hm, hc]
        simp only [true_and, Bool.true_eq_false, and_false, not_false_eq_true]
        tauto

theorem routeInv_init (r : RecBytes) : RouteInv r ⟨[], [], []⟩ :=
  ⟨by intro t; simp [RouteState.calls], by simp [RouteState.calls],
    by intro x hx; simp at hx⟩

/-- The calls of `RouteRecBytes`: no target twice, exactly the dispatched
targets, each with the routed record. -/
theorem RouteRecBytes_spec (push : ClusterTarget → RecBytes → GoError) (rs : Rules)
    (r : RecBytes) :
    (rs.RouteRecBytes push r).calls.Nodup ∧
      (∀ x ∈ (rs.RouteRecBytes push r).pushes, x.2 = r) ∧
      ∀ t, t ∈ (rs.RouteRecBytes push r).calls ↔ Dispatched r rs.rules t := by
  obtain ⟨⟨_, h2, h3⟩, h4⟩ := routeLoop_spec push r rs.rules ⟨[], [], []⟩ (routeInv_init r)
  refine ⟨h2, h3, ?_⟩
  intro t
  unfold Rules.RouteRecBytes
  rw [h4 t]
  simp [RouteState.calls]

/-! ## The claims -/

/-- C1: a line made of three non-empty fields free of spaces and tabs, with
arbitrary runs of spaces and tabs before, between (non-empty) and after
them, parses without normalization into the record whose `Path`, `RawVal`
and `RawTime` are exactly the three fields. -/
theorem parse_three_fields (validChar : Byte → Bool) (w0 p w1 v w2 t w3 : List Byte) (now : Nat)
    (hp : p ≠ [] ∧ NoWs p) (hv : v ≠ [] ∧ NoWs v) (ht : t ≠ [] ∧ NoWs t)
    (hw0 : WsRun w0) (hw1 : w1 ≠ [] ∧ WsRun w1) (hw2 : w2 ≠ [] ∧ WsRun w2) (hw3 : WsRun w3) :
    ParseRecBytes validChar (w0 ++ p ++ w1 ++ v ++ w2 ++ t ++ w3) false now =
      some (some { Path := p, Val := 0, RawVal := v, Time := 0, RawTime := t,
                   Received := now }, none) := by
  apply ParseRecBytes_three validChar w0 p w1 v w2 t w3 now hw0 hp.2 hp.1 hw1.2 hw1.1 hv.2 hv.1
    hw2.2 hw2.1 ht.2 ht.1
  intro c hc
  cases w3 with
  | nil => simp at hc
  | cons x xs => simp at hc; subst hc; exact hw3 x (by simp)

theorem parse_three_fields_witness :
    ([97, 46, 98] ≠ [] ∧ NoWs [97, 46, 98]) ∧ ([49] ≠ [] ∧ NoWs [49]) ∧
    ([50, 51] ≠ [] ∧ NoWs [50, 51]) ∧ WsRun [9] ∧ ([32, 9] ≠ [] ∧ WsRun [32, 9]) ∧
    ([32] ≠ [] ∧ WsRun [32]) ∧ WsRun [] ∧
    ParseRecBytes validCharSample ([9] ++ [97, 46, 98] ++ [32, 9] ++ [49] ++ [32] ++ [50, 51] ++ [])
      false 5 = some (some ⟨[97, 46, 98], 0, [49], 0, [50, 51], 5⟩, none) :=
  ⟨by decide, by decide, by decide, by decide, by decide, by decide, by decide,
    parse_three_fields validCharSample [9] [97, 46, 98] [32, 9] [49] [32] [50, 51] [] 5
      (by decide) (by decide) (by decide) (by decide) (by decide) (by decide) (by decide)⟩

/-- C4: an input with fewer than three maximal runs of non-space, non-tab
bytes makes `ParseRecBytes` return an error and a nil record, for either
value of the normalize flag. -/
theorem parse_too_few_fields (validChar : Byte → Bool) (s : List Byte) (normalize : Bool)
    (now : Nat) (h : countFields s < 3) :
    ∃ err, ParseRecBytes validChar s normalize now = some (none, some err) := by
  cases hre : (recFields s).retErr with
  | none =>
    have := recFields_ok_count s hre
    omega
  | some err => exact ⟨_, ParseRecBytes_fields_error validChar s normalize now err hre⟩

theorem parse_too_few_fields_witness :
    countFields [97, 32, 49, 32] < 3 ∧
      ∃ err, ParseRecBytes validCharSample [97, 32, 49, 32] true 0 = some (none, some err) :=
  ⟨by decide, parse_too_few_fields validCharSample [97, 32, 49, 32] true 0 (by decide)⟩

/-- C5 (the code at the failing input): the record parsed from `"a 1 2"`
serializes to `"a 1 2\n"`, and parsing that line gives the `RawTime`
`"2\n"`, not `"2"`: `getField` does not end a field at the newline that
`Serialize` writes as record terminator, so parsing does not invert
`Serialize`. -/
theorem serialize_parse_newline :
    ParseRecBytes validCharSample [97, 32, 49, 32, 50] false 0 =
        some (some ⟨[97], 0, [49], 0, [50], 0⟩, none) ∧
      ParseRecBytes validCharSample (RecBytes.Serialize ⟨[97], 0, [49], 0, [50], 0⟩) false 0 =
        some (some ⟨[97], 0, [49], 0, [50, 10], 0⟩, none) ∧
      ([50, 10] : List Byte) ≠ [50] := by
  decide

/-- The newline defect is not particular to one input: for every record `r`
of a successful `ParseRecBytes` call, parsing `Serialize(r)` returns `r`'s
`Path` and `RawVal` but a `RawTime` that ends with the terminating newline
of the serialized line. -/
theorem reparse_serialized_keeps_newline (validChar : Byte → Bool) (s : List Byte)
    (normalize : Bool)
    (now now' : Nat) (r : RecBytes)
    (h : ParseRecBytes validChar s normalize now = some (some r, none)) :
    r.Serialize = r.Path ++ [space] ++ r.RawVal ++ [space] ++ r.RawTime ++ [newline] ∧
      ParseRecBytes validChar r.Serialize false now' =
        some (some { Path := r.Path, Val := 0, RawVal := r.RawVal, Time := 0,
                     RawTime := r.RawTime ++ [newline], Received := now' }, none) := by
  obtain ⟨hp, hv, ht, _, _, _⟩ := ParseRecBytes_ok_fields validChar s normalize now r h
  have hser : r.Serialize =
      [] ++ r.Path ++ [space] ++ r.RawVal ++ [space] ++ (r.RawTime ++ [newline]) ++ [] := by
    simp [RecBytes.Serialize]
  refine ⟨by simp [RecBytes.Serialize], ?_⟩
  rw [hser]
  apply ParseRecBytes_three validChar [] r.Path [space] r.RawVal [space]
    (r.RawTime ++ [newline]) [] now' (by intro c hc; simp at hc) hp.2 hp.1
    (by intro c hc; simp at hc; subst hc; decide) (by simp) hv.2 hv.1
    (by intro c hc; simp at hc; subst hc; decide) (by simp)
  · intro c hc
    rcases List.mem_append.mp hc with hc | hc
    · exact ht.2 c hc
    · simp at hc; subst hc; decide
  · simp
  · intro c hc; simp at hc

/-- C7 (the code at the failing input): `Copy` of the record with `Path`
`"a.b"`, `RawVal` `"1"`, `RawTime` `"2"` has empty `Path`, `RawVal` and
`RawTime`; for every record the three byte fields of the copy are empty,
because `copy` writes into nil destinations, while `Val`, `Time` and
`Received` are carried over. -/
theorem copy_loses_bytes :
    RecBytes.Copy ⟨[97, 46, 98], 0, [49], 0, [50], 7⟩ = ⟨[], 0, [], 0, [], 7⟩ ∧
      ∀ r : RecBytes, (RecBytes.Copy r).Path = [] ∧ (RecBytes.Copy r).RawVal = [] ∧
        (RecBytes.Copy r).RawTime = [] ∧ (RecBytes.Copy r).Val = r.Val ∧
        (RecBytes.Copy r).Time = r.Time ∧ (RecBytes.Copy r).Received = r.Received := by
  refine ⟨by decide, ?_⟩
  intro r
  simp [RecBytes.Copy, goCopy]

/-- C8: on every path that is not made only of dots `normalizePathBytes`
succeeds and returns the reference result (leading and trailing dots
stripped, every dot followed by a dot dropped, bytes outside the allowed set
replaced by `'_'`); when `'.'` and `'_'` are allowed, the result has no
leading dot, no trailing dot, no two adjacent dots and only allowed bytes. -/
theorem normalizePathBytes_eq_reference (validChar : Byte → Bool) (p : List Byte)
    (h : p = [] ∨ ∃ c ∈ p, c ≠ dot) :
    (∃ changed,
        normalizePathBytes validChar p = some (normalizeRef validChar p, changed, none)) ∧
      (validChar dot = true → validChar underscore = true →
        HeadNotDot (normalizeRef validChar p) ∧ LastNotDot (normalizeRef validChar p) ∧
          NoAdjacentDots (normalizeRef validChar p) ∧
          ∀ c ∈ normalizeRef validChar p, validChar c = true) := by
  rcases h with h | h
  · subst h
    refine ⟨⟨false, rfl⟩, ?_⟩
    intro _ _
    have e : normalizeRef validChar [] = [] := rfl
    rw [e]
    refine ⟨by intro c hc; simp at hc, by intro c hc; simp at hc, ?_,
      by intro c hc; simp at hc⟩
    simp [NoAdjacentDots]
  · refine ⟨normalizePathBytes_of_nondot validChar p h, ?_⟩
    intro _ hu
    obtain ⟨ld, td, _, _, _, hne, hhead, hlast⟩ := stripDots_decomp p h
    obtain ⟨_, h2, h3, h4⟩ := replaceInvalid_dropDot_props validChar _ hne hhead hlast
    exact ⟨h2, h3, h4, replaceInvalid_valid validChar _ hu⟩

theorem normalizePathBytes_eq_reference_witness :
    (([46, 97, 46, 46, 46, 98, 33, 99, 46, 46] : List Byte) = [] ∨
        ∃ c ∈ ([46, 97, 46, 46, 46, 98, 33, 99, 46, 46] : List Byte), c ≠ dot) ∧
      normalizeRef validCharSample [46, 97, 46, 46, 46, 98, 33, 99, 46, 46] =
        [97, 46, 98, 95, 99] ∧
      ((∃ changed, normalizePathBytes validCharSample [46, 97, 46, 46, 46, 98, 33, 99, 46, 46] =
          some (normalizeRef validCharSample [46, 97, 46, 46, 46, 98, 33, 99, 46, 46],
            changed, none)) ∧
        (validCharSample dot = true → validCharSample underscore = true →
          HeadNotDot (normalizeRef validCharSample [46, 97, 46, 46, 46, 98, 33, 99, 46, 46]) ∧
          LastNotDot (normalizeRef validCharSample [46, 97, 46, 46, 46, 98, 33, 99, 46, 46]) ∧
          NoAdjacentDots
            (normalizeRef validCharSample [46, 97, 46, 46, 46, 98, 33, 99, 46, 46]) ∧
          ∀ c ∈ normalizeRef validCharSample [46, 97, 46, 46, 46, 98, 33, 99, 46, 46],
            validCharSample c = true)) :=
  ⟨Or.inr (by decide), by decide,
    normalizePathBytes_eq_reference validCharSample [46, 97, 46, 46, 46, 98, 33, 99, 46, 46]
      (Or.inr (by decide))⟩

/-- C9: normalization is idempotent: when `normalizePathBytes` succeeds on
`p` with result `q`, it succeeds on `q` and returns `q`. -/
theorem normalizePathBytes_idempotent (validChar : Byte → Bool) (p q : List Byte)
    (changed : Bool) (h : normalizePathBytes validChar p = some (q, changed, none)) :
    ∃ changed', normalizePathBytes validChar q = some (q, changed', none) := by
  by_cases hnd : ∃ c ∈ p, c ≠ dot
  · obtain ⟨ld, td, hp, hld, htd, hne, hhead, hlast⟩ := stripDots_decomp p hnd
    have h1 := normalizePathBytes_decomp validChar ld (stripDots p) td hld htd hne hhead hlast
    rw [← hp, h] at h1
    simp only [Option.some.injEq, Prod.mk.injEq] at h1
    obtain ⟨hq, _⟩ := h1
    obtain ⟨q1, q2, q3, q4⟩ := replaceInvalid_dropDot_props validChar _ hne hhead hlast
    rw [← hq] at q1 q2 q3 q4
    have h2 := normalizePathBytes_decomp validChar [] q [] (by intro c hc; simp at hc)
      (by intro c hc; simp at hc) q1 q2 q3
    rw [dropDotBeforeDot_of_noAdjacent q q4] at h2
    have hidem : replaceInvalid validChar q = q := by
      rw [hq]; exact replaceInvalid_idem validChar _
    rw [hidem] at h2
    simp only [List.nil_append, List.append_nil] at h2
    exact ⟨_, h2⟩
  · push_neg at hnd
    by_cases hne : p = []
    · subst hne
      have : q = [] := by
        simp [normalizePathBytes] at h
        exact h.1
      subst this
      exact ⟨false, rfl⟩
    · rw [normalizePathBytes_dots validChar p hne hnd] at h
      simp at h

theorem normalizePathBytes_idempotent_witness :
    normalizePathBytes validCharSample [46, 97, 46, 46, 98, 33] =
        some ([97, 46, 98, 95], true, none) ∧
      ∃ changed', normalizePathBytes validCharSample [97, 46, 98, 95] =
        some ([97, 46, 98, 95], changed', none) :=
  ⟨by decide, normalizePathBytes_idempotent validCharSample [46, 97, 46, 46, 98, 33]
    [97, 46, 98, 95] true (by decide)⟩

/-- C10: on a path made of one or more dots `normalizePathBytes` returns an
error, and `ParseRecBytes` with normalization returns an error and no record
on every line whose path field is such a path. -/
theorem dots_only_rejected (validChar : Byte → Bool) (p : List Byte) (hne : p ≠ [])
    (hdots : ∀ c ∈ p, c = dot) :
    normalizePathBytes validChar p = some ([], true, some "path contains only dots") ∧
      ∀ (w0 rest : List Byte) (now : Nat), WsRun w0 → WsOrEnd rest →
        ∃ err, ParseRecBytes validChar (w0 ++ p ++ rest) true now = some (none, some err) := by
  refine ⟨normalizePathBytes_dots validChar p hne hdots, ?_⟩
  intro w0 rest now hw0 hrest
  cases hre : (recFields (w0 ++ p ++ rest)).retErr with
  | some err => exact ⟨_, ParseRecBytes_fields_error validChar _ true now err hre⟩
  | none =>
    have hnows : NoWs p := by
      intro c hc; rw [hdots c hc]; decide
    have h0 : getField (w0 ++ p ++ rest) 0 = (w0.length, w0.length + p.length, none) := by
      have := getField_append [] w0 p rest hw0 hnows hne hrest
      simpa [List.append_assoc] using this
    obtain ⟨e1, e2⟩ := recFields_path _ _ _ h0
    have hsl : slice (w0 ++ p ++ rest) w0.length (w0.length + p.length) = some p := by
      have := slice_append w0 p rest
      simpa [List.append_assoc] using this
    refine ⟨wrap "path contains only dots" "failed to normalize path", ?_⟩
    unfold ParseRecBytes
    simp only [hre, e1, e2, hsl, if_true, Option.some_bind,
      normalizePathBytes_dots validChar p hne hdots]

theorem dots_only_rejected_witness :
    ([46, 46, 46] : List Byte) ≠ [] ∧ (∀ c ∈ ([46, 46, 46] : List Byte), c = dot) ∧
      (normalizePathBytes validCharSample [46, 46, 46] =
          some ([], true, some "path contains only dots") ∧
        ∀ (w0 rest : List Byte) (now : Nat), WsRun w0 → WsOrEnd rest →
          ∃ err, ParseRecBytes validCharSample (w0 ++ [46, 46, 46] ++ rest) true now =
            some (none, some err)) :=
  ⟨by decide, by decide, dots_only_rejected validCharSample [46, 46, 46] (by decide) (by decide)⟩

/-- C2: `RouteRecBytes` calls `PushBytes`, always with the routed record, on
exactly the targets of the rules that match the record and that no matching
rule with a false `Continue` flag precedes; in particular nothing is pushed
for a rule after the first such rule, every target of every matching rule up
to and including it is pushed, and when no rule matches there is no push. -/
theorem route_pushes_exactly (push : ClusterTarget → RecBytes → GoError) (rs : Rules)
    (r : RecBytes) :
    (∀ t, t ∈ (rs.RouteRecBytes push r).calls ↔
        ∃ pre rl post, rs.rules = pre ++ rl :: post ∧
          (∀ x ∈ pre, ¬(x.MatchBytes r = true ∧ x.Continue = false)) ∧
          rl.MatchBytes r = true ∧ t ∈ rl.Targets) ∧
      (∀ x ∈ (rs.RouteRecBytes push r).pushes, x.2 = r) ∧
      ((∀ rl ∈ rs.rules, rl.MatchBytes r = false) → (rs.RouteRecBytes push r).pushes = []) := by
  obtain ⟨_, h2, h3⟩ := RouteRecBytes_spec push rs r
  refine ⟨h3, h2, ?_⟩
  intro hno
  cases hp : (rs.RouteRecBytes push r).pushes with
  | nil => rfl
  | cons x xs =>
    have hx : x.1 ∈ (rs.RouteRecBytes push r).calls := by
      simp [RouteState.calls, hp]
    obtain ⟨pre, rl, post, hrs, _, hm, _⟩ := (h3 x.1).mp hx
    have := hno rl (by rw [hrs]; simp)
    rw [hm] at this
    exact absurd this (by simp)

theorem route_pushes_exactly_witness :
    ((⟨[prefixRule [bytes "a."] [1] false, prefixRule [bytes "a."] [2] false], false⟩ :
        Rules).RouteRecBytes (fun _ _ => none) ⟨bytes "a.b", 0, [49], 0, [50], 0⟩).calls = [1] ∧
      ((⟨[prefixRule [bytes "a."] [1] true, prefixRule [bytes "a."] [2] false], false⟩ :
        Rules).RouteRecBytes (fun _ _ => none) ⟨bytes "a.b", 0, [49], 0, [50], 0⟩).calls = [1, 2] ∧
      ((⟨[prefixRule [bytes "x."] [1] true, prefixRule [bytes "y."] [2] false], false⟩ :
        Rules).RouteRecBytes (fun _ _ => none) ⟨bytes "a.b", 0, [49], 0, [50], 0⟩).pushes = [] :=
  ⟨by decide, by decide,
    (route_pushes_exactly (fun _ _ => none)
      ⟨[prefixRule [bytes "x."] [1] true, prefixRule [bytes "y."] [2] false], false⟩
      ⟨bytes "a.b", 0, [49], 0, [50], 0⟩).2.2
      (by intro rl hrl
          simp only [List.mem_cons, List.mem_singleton, List.not_mem_nil, or_false] at hrl
          rcases hrl with h | h <;> subst h <;> decide)⟩

/-- C3: one call of `RouteRecBytes` calls `PushBytes` on any target at most
once, however many matching rules list it and however often a rule lists
it; a target listed by two matching rules that are both evaluated is pushed
exactly once. -/
theorem route_pushes_once (push : ClusterTarget → RecBytes → GoError) (rs : Rules)
    (r : RecBytes) (t : ClusterTarget) :
    (rs.RouteRecBytes push r).calls.count t ≤ 1 ∧
      ∀ pre rl1 mid rl2 post, rs.rules = pre ++ rl1 :: (mid ++ rl2 :: post) →
        (∀ x ∈ pre ++ rl1 :: mid, ¬(x.MatchBytes r = true ∧ x.Continue = false)) →
        rl1.MatchBytes r = true → rl2.MatchBytes r = true →
        t ∈ rl1.Targets → t ∈ rl2.Targets →
        (rs.RouteRecBytes push r).calls.count t = 1 := by
  obtain ⟨h1, _, h3⟩ := RouteRecBytes_spec push rs r
  refine ⟨List.nodup_iff_count_le_one.mp h1 t, ?_⟩
  intro pre rl1 mid rl2 post hrs hpre hm1 _ ht1 _
  apply List.count_eq_one_of_mem h1
  rw [h3 t]
  exact ⟨pre, rl1, mid ++ rl2 :: post, hrs,
    fun x hx => hpre x (List.mem_append_left _ hx), hm1, ht1⟩

theorem route_pushes_once_witness :
    ((⟨[prefixRule [bytes "a."] [7, 7, 8] true, prefixRule [bytes "a.b"] [8, 7] false], false⟩ :
        Rules).RouteRecBytes (fun _ _ => some "down")
          ⟨bytes "a.b", 0, [49], 0, [50], 0⟩).calls = [7, 8] ∧
      ((⟨[prefixRule [bytes "a."] [7, 7, 8] true, prefixRule [bytes "a.b"] [8, 7] false], false⟩ :
        Rules).RouteRecBytes (fun _ _ => some "down")
          ⟨bytes "a.b", 0, [49], 0, [50], 0⟩).calls.count 7 = 1 :=
  ⟨by decide,
    (route_pushes_once (fun _ _ => some "down")
      ⟨[prefixRule [bytes "a."] [7, 7, 8] true, prefixRule [bytes "a.b"] [8, 7] false], false⟩
      ⟨bytes "a.b", 0, [49], 0, [50], 0⟩ 7).2 []
      (prefixRule [bytes "a."] [7, 7, 8] true) [] (prefixRule [bytes "a.b"] [8, 7] false) []
      rfl
      (by intro x hx
          simp only [List.nil_append, List.mem_singleton] at hx
          subst hx; decide)
      (by decide) (by decide) (by decide) (by decide)⟩

/-- C6 (the code at the failing input): processing
`"app.cpu.load 0.42 1609459200\n"` against the single rule with prefix
`"app."` and cluster `main` makes one push to `main`, with the `Path` and
`RawVal` of the line, but its `RawTime` is `"1609459200\n"`, not
`"1609459200"`: `getField` does not end the timestamp at the newline. -/
theorem proc_end_to_end_newline :
    (proc validCharSample (fun _ _ => none) ⟨[prefixRule [bytes "app."] [1] false], false⟩
        (fun r => [r]) (bytes "app.cpu.load 0.42 1609459200\n") false 0).map
        (fun eff => eff.pushes) =
      some [(1, ⟨bytes "app.cpu.load", 0, bytes "0.42", 0, bytes "1609459200\n", 0⟩)] ∧
      bytes "1609459200\n" ≠ bytes "1609459200" := by
  decide

/-- The same outcome for every allowed set, push behaviour, target, flag
and clock value: the line `"app.cpu.load 0.42 1609459200\n"` is pushed once,
with the newline at the end of `RawTime`, and no error record is counted;
with normalization the bytes of the path are assumed to be allowed. -/
theorem proc_sample_line_pushes (validChar : Byte → Bool)
    (push : ClusterTarget → RecBytes → GoError)
    (main : ClusterTarget) (cont measureRegex normalize : Bool) (now : Nat)
    (hv : normalize = true → ∀ c ∈ bytes "app.cpu.load", validChar c = true) :
    (proc validChar push ⟨[prefixRule [bytes "app."] [main] cont], measureRegex⟩
        (fun r => [r]) (bytes "app.cpu.load 0.42 1609459200\n") normalize now).map
        (fun eff => (eff.pushes, eff.errorRecs)) =
      some ([(main, ⟨bytes "app.cpu.load", 0, bytes "0.42", 0, bytes "1609459200\n", now⟩)],
        0) := by
  have hparse : ParseRecBytes validChar (bytes "app.cpu.load 0.42 1609459200\n") normalize now =
      some (some ⟨bytes "app.cpu.load", 0, bytes "0.42", 0, bytes "1609459200\n", now⟩,
        none) := by
    cases normalize with
    | false => rfl
    | true =>
      have hf : recFields (bytes "app.cpu.load 0.42 1609459200\n") =
          ⟨0, 12, 13, 17, 18, 29, none⟩ := by decide
      have s1 : slice (bytes "app.cpu.load 0.42 1609459200\n") 0 12 =
          some (bytes "app.cpu.load") := by decide
      have s2 : slice (bytes "app.cpu.load 0.42 1609459200\n") 13 17 =
          some (bytes "0.42") := by decide
      have s3 : slice (bytes "app.cpu.load 0.42 1609459200\n") 18 29 =
          some (bytes "1609459200\n") := by decide
      have hn : normalizePathBytes validChar (bytes "app.cpu.load") =
          some (bytes "app.cpu.load", needsNorm validChar (bytes "app.cpu.load") ||
            !(([] : List Byte).isEmpty && ([] : List Byte).isEmpty), none) := by
        have h := normalizePathBytes_decomp validChar [] (bytes "app.cpu.load") []
          (by intro c hc; simp at hc) (by intro c hc; simp at hc) (by decide)
          (by intro c hc; have : c = 97 := by
                have e : (bytes "app.cpu.load").head? = some 97 := by decide
                rw [e] at hc; exact (Option.some.inj hc).symm
              rw [this]; decide)
          (by intro c hc; have : c = 100 := by
                have e : (bytes "app.cpu.load").getLast? = some 100 := by decide
                rw [e] at hc; exact (Option.some.inj hc).symm
              rw [this]; decide)
        have hd : dropDotBeforeDot (bytes "app.cpu.load") = bytes "app.cpu.load" := by decide
        have hr : replaceInvalid validChar (bytes "app.cpu.load") = bytes "app.cpu.load" := by
          unfold replaceInvalid
          conv_rhs => rw [← List.map_id (bytes "app.cpu.load")]
          apply List.map_congr_left
          intro c hc
          simp [hv rfl c hc]
        rw [hd, hr] at h
        simpa using h
      unfold ParseRecBytes
      simp only [hf, s1, s2, s3, hn, if_true, Option.some_bind]
  have hroute : ((⟨[prefixRule [bytes "app."] [main] cont], measureRegex⟩ :
      Rules).RouteRecBytes push
        ⟨bytes "app.cpu.load", 0, bytes "0.42", 0, bytes "1609459200\n", now⟩).pushes =
      [(main, ⟨bytes "app.cpu.load", 0, bytes "0.42", 0, bytes "1609459200\n", now⟩)] := by
    cases cont <;> rfl
  unfold proc
  rw [hparse]
  simp only [Option.some_bind, List.foldl_cons, List.foldl_nil, Option.map_some', hroute,
    List.nil_append]

/-! ## Independence of routing from the push results -/

theorem pushTargets_indep (push push' : ClusterTarget → RecBytes → GoError) (r : RecBytes) :
    ∀ (cls : List ClusterTarget) (st st' : RouteState), st.pushedTo = st'.pushedTo →
      st.pushes = st'.pushes →
      (pushTargets push r cls st).pushedTo = (pushTargets push' r cls st').pushedTo ∧
        (pushTargets push r cls st).pushes = (pushTargets push' r cls st').pushes
  | [], st, st', h1, h2 => ⟨h1, h2⟩
  | cl :: cls, st, st', h1, h2 => by
    unfold pushTargets
    by_cases hcl : cl ∈ st.pushedTo
    · rw [if_pos hcl, if_pos (h1 ▸ hcl)]
      exact pushTargets_indep push push' r cls st st' h1 h2
    · rw [if_neg hcl, if_neg (h1 ▸ hcl)]
      exact pushTargets_indep push push' r cls _ _ (by simp [h1]) (by simp [h2])

theorem routeLoop_indep (push push' : ClusterTarget → RecBytes → GoError) (r : RecBytes) :
    ∀ (rls : List Rule) (st st' : RouteState), st.pushedTo = st'.pushedTo →
      st.pushes = st'.pushes →
      (routeLoop push r rls st).pushedTo = (routeLoop push' r rls st').pushedTo ∧
        (routeLoop push r rls st).pushes = (routeLoop push' r rls st').pushes
  | [], st, st', h1, h2 => ⟨h1, h2⟩
  | rl :: rls, st, st', h1, h2 => by
    unfold routeLoop
    simp only
    cases hm : rl.MatchBytes r with
    | false =>
      simp only [Bool.false_eq_true, if_false, Bool.false_and]
      exact routeLoop_indep push push' r rls st st' h1 h2
    | true =>
      simp only [if_true, Bool.true_and]
      obtain ⟨j1, j2⟩ := pushTargets_indep push push' r rl.Targets st st' h1 h2
      cases hc : rl.Continue with
      | false =>
        simp only [Bool.not_false, if_true]
        exact ⟨j1, j2⟩
      | true =>
        simp only [Bool.not_true, Bool.false_eq_true, if_false]
        exact routeLoop_indep push push' r rls _ _ j1 j2

/-! ## The loops of `Build` and `compile` -/

theorem buildTargets_find (clusters : String → Option ClusterTarget) :
    ∀ (names : List String) (targets : List ClusterTarget),
      (∀ n, names.find? (isMissing clusters) = some n →
        (buildTargets clusters names targets).2 = some (unknownClusterMsg n)) ∧
      (names.find? (isMissing clusters) = none →
        ∃ ts, buildTargets clusters names targets = (targets ++ ts, none) ∧
          List.Forall₂ (fun clName cl => clusters clName = some cl) names ts)
  | [], targets => ⟨by intro n h; simp at h, fun _ => ⟨[], by simp [buildTargets], List.Forall₂.nil⟩⟩
  | clName :: rest, targets => by
    cases hc : clusters clName with
    | none =>
      have hm : isMissing clusters clName = true := by simp [isMissing, hc]
      refine ⟨?_, ?_⟩
      · intro n h
        rw [List.find?_cons_of_pos _ hm] at h
        cases h
        simp [buildTargets, hc]
      · intro h
        rw [List.find?_cons_of_pos _ hm] at h
        cases h
    | some cl =>
      have hm : ¬ isMissing clusters clName = true := by simp [isMissing, hc]
      obtain ⟨i1, i2⟩ := buildTargets_find clusters rest (targets ++ [cl])
      refine ⟨?_, ?_⟩
      · intro n h
        rw [List.find?_cons_of_neg _ hm] at h
        simpa [buildTargets, hc] using i1 n h
      · intro h
        rw [List.find?_cons_of_neg _ hm] at h
        obtain ⟨ts, e1, e2⟩ := i2 h
        refine ⟨cl :: ts, ?_, List.Forall₂.cons hc e2⟩
        simpa [buildTargets, hc] using e1

theorem find?_none_of_append {α : Type} (p : α → Bool) (a b : List α)
    (h : (a ++ b).find? p = none) : a.find? p = none ∧ b.find? p = none := by
  rw [List.find?_eq_none] at h
  exact ⟨List.find?_eq_none.mpr fun x hx => h x (List.mem_append_left _ hx),
    List.find?_eq_none.mpr fun x hx => h x (List.mem_append_right _ hx)⟩

theorem find?_append_of_none {α : Type} (p : α → Bool) (a b : List α)
    (h : a.find? p = none) : (a ++ b).find? p = b.find? p := by
  rw [List.find?_append, h]
  rfl

theorem find?_append_of_some {α : Type} (p : α → Bool) (a b : List α) (x : α)
    (h : a.find? p = some x) : (a ++ b).find? p = some x := by
  rw [List.find?_append, h]
  rfl

/-- The first loop of `Build`: it stops at the first declared cluster name
that is missing, with the rules of the declarations before that one. -/
theorem buildRules_find (clusters : String → Option ClusterTarget) :
    ∀ (crs : List ConfRule) (rules : List Rule),
      (∀ n, (declaredClusters crs).find? (isMissing clusters) = some n →
        ∃ pre cr post new, crs = pre ++ cr :: post ∧
          (declaredClusters pre).find? (isMissing clusters) = none ∧
          cr.Clusters.find? (isMissing clusters) = some n ∧
          List.Forall₂ (PreRuleOf clusters) pre new ∧
          buildRules clusters crs rules = (rules ++ new, some (unknownClusterMsg n))) ∧
      ((declaredClusters crs).find? (isMissing clusters) = none →
        ∃ new, buildRules clusters crs rules = (rules ++ new, none) ∧
          List.Forall₂ (PreRuleOf clusters) crs new)
  | [], rules => ⟨by intro n h; simp [declaredClusters] at h,
      fun _ => ⟨[], by simp [buildRules], List.Forall₂.nil⟩⟩
  | cr :: crs, rules => by
    have hdecl : declaredClusters (cr :: crs) = cr.Clusters ++ declaredClusters crs := by
      simp [declaredClusters]
    obtain ⟨t1, t2⟩ := buildTargets_find clusters cr.Clusters []
    cases hf : cr.Clusters.find? (isMissing clusters) with
    | some m =>
      have herr := t1 m hf
      refine ⟨?_, ?_⟩
      · intro n h
        rw [hdecl, find?_append_of_some _ _ _ m hf] at h
        cases h
        refine ⟨[], cr, crs, [], rfl, by simp [declaredClusters], hf, List.Forall₂.nil, ?_⟩
        unfold buildRules
        simp only
        rcases hb : buildTargets clusters cr.Clusters [] with ⟨ts, e⟩
        rw [hb] at herr
        simp only at herr
        subst herr
        simp
      · intro h
        rw [hdecl, find?_append_of_some _ _ _ m hf] at h
        cases h
    | none =>
      obtain ⟨ts, hts, hfa⟩ := t2 hf
      have hstep : buildRules clusters (cr :: crs) rules =
          buildRules clusters crs (rules ++ [preRule cr ts]) := by
        conv_lhs => unfold buildRules
        simp only [hts, List.nil_append]
        rfl
      have hpre : PreRuleOf clusters cr (preRule cr ts) := ⟨rfl, rfl, rfl, hfa, rfl, rfl⟩
      obtain ⟨i1, i2⟩ := buildRules_find clusters crs (rules ++ [preRule cr ts])
      refine ⟨?_, ?_⟩
      · intro n h
        rw [hdecl, find?_append_of_none _ _ _ hf] at h
        obtain ⟨pre, cr', post, new, e1, e2, e3, e4, e5⟩ := i1 n h
        refine ⟨cr :: pre, cr', post, _ :: new, by simp [e1], ?_, e3,
          List.Forall₂.cons hpre e4, ?_⟩
        · have : declaredClusters (cr :: pre) = cr.Clusters ++ declaredClusters pre := by
            simp [declaredClusters]
          rw [this, find?_append_of_none _ _ _ hf, e2]
        · rw [hstep, e5]
          simp
      · intro h
        rw [hdecl, find?_append_of_none _ _ _ hf] at h
        obtain ⟨new, e1, e2⟩ := i2 h
        refine ⟨_ :: new, ?_, List.Forall₂.cons hpre e2⟩
        rw [hstep, e1]
        simp

theorem compileRegexs_find (regexpCompile : String → CompileResult) :
    ∀ (regexs : List String) (compiled : List (List Byte → Bool)),
      (∀ re, regexs.find? (failsCompile regexpCompile) = some re →
        ∃ e acc, regexpCompile re = Except.error e ∧
          compileRegexs regexpCompile regexs compiled =
            (acc, some (wrap e ("compiling regex " ++ fmtNilRegexp ++ " failed")))) ∧
      (regexs.find? (failsCompile regexpCompile) = none →
        ∃ cres, compileRegexs regexpCompile regexs compiled = (compiled ++ cres, none) ∧
          List.Forall₂ (fun re cre => regexpCompile re = Except.ok cre) regexs cres)
  | [], compiled => ⟨by intro re h; simp at h,
      fun _ => ⟨[], by simp [compileRegexs], List.Forall₂.nil⟩⟩
  | re0 :: rest, compiled => by
    cases hc : regexpCompile re0 with
    | error e =>
      have hm : failsCompile regexpCompile re0 = true := by simp [failsCompile, hc]
      refine ⟨?_, ?_⟩
      · intro re h
        rw [List.find?_cons_of_pos _ hm] at h
        cases h
        exact ⟨e, compiled, hc, by simp [compileRegexs, hc]⟩
      · intro h
        rw [List.find?_cons_of_pos _ hm] at h
        cases h
    | ok cre =>
      have hm : ¬ failsCompile regexpCompile re0 = true := by simp [failsCompile, hc]
      obtain ⟨i1, i2⟩ := compileRegexs_find regexpCompile rest (compiled ++ [cre])
      refine ⟨?_, ?_⟩
      · intro re h
        rw [List.find?_cons_of_neg _ hm] at h
        obtain ⟨e, acc, e1, e2⟩ := i1 re h
        exact ⟨e, acc, e1, by simpa [compileRegexs, hc] using e2⟩
      · intro h
        rw [List.find?_cons_of_neg _ hm] at h
        obtain ⟨cres, e1, e2⟩ := i2 h
        refine ⟨cre :: cres, ?_, List.Forall₂.cons hc e2⟩
        simpa [compileRegexs, hc] using e1

/-- The loop of `compile`: it stops at the first regex source that does not
compile, leaving as many rules as before; otherwise every rule is compiled. -/
theorem compileRules_find (regexpCompile : String → CompileResult) :
    ∀ (todo done : List Rule),
      (∀ re, ((todo.map Rule.Regexs).flatten).find? (failsCompile regexpCompile) = some re →
        ∃ e rules, regexpCompile re = Except.error e ∧
          compileRules regexpCompile todo done =
            (rules, some (wrap e ("compiling regex " ++ fmtNilRegexp ++ " failed"))) ∧
          rules.length = done.length + todo.length) ∧
      (((todo.map Rule.Regexs).flatten).find? (failsCompile regexpCompile) = none →
        ∃ new, compileRules regexpCompile todo done = (done ++ new, none) ∧
          List.Forall₂ (CompiledOf regexpCompile) todo new)
  | [], done => ⟨by intro re h; simp at h,
      fun _ => ⟨[], by simp [compileRules], List.Forall₂.nil⟩⟩
  | rl :: rest, done => by
    have hflat : ((rl :: rest).map Rule.Regexs).flatten =
        rl.Regexs ++ (rest.map Rule.Regexs).flatten := by simp
    obtain ⟨t1, t2⟩ := compileRegexs_find regexpCompile rl.Regexs []
    cases hf : rl.Regexs.find? (failsCompile regexpCompile) with
    | some m =>
      obtain ⟨e, acc, e1, e2⟩ := t1 m hf
      refine ⟨?_, ?_⟩
      · intro re h
        rw [hflat, find?_append_of_some _ _ _ m hf] at h
        cases h
        refine ⟨e, done ++ [{ rl with CompiledRE := acc }] ++ rest, e1, ?_, ?_⟩
        · conv_lhs => unfold compileRules
          simp only [e2]
        · simp
      · intro h
        rw [hflat, find?_append_of_some _ _ _ m hf] at h
        cases h
    | none =>
      obtain ⟨cres, hc1, hc2⟩ := t2 hf
      have hstep : compileRules regexpCompile (rl :: rest) done =
          compileRules regexpCompile rest
            (done ++ [{ rl with CompiledRE := cres, PrefixTrie := compileTrie rl.Prefixes }]) := by
        conv_lhs => unfold compileRules
        simp only [hc1, List.nil_append]
      have hco : CompiledOf regexpCompile rl
          { rl with CompiledRE := cres, PrefixTrie := compileTrie rl.Prefixes } :=
        ⟨rfl, rfl, rfl, rfl, hc2, rfl⟩
      obtain ⟨i1, i2⟩ := compileRules_find regexpCompile rest
        (done ++ [{ rl with CompiledRE := cres, PrefixTrie := compileTrie rl.Prefixes }])
      refine ⟨?_, ?_⟩
      · intro re h
        rw [hflat, find?_append_of_none _ _ _ hf] at h
        obtain ⟨e, rules, e1, e2, e3⟩ := i1 re h
        refine ⟨e, rules, e1, by rw [hstep, e2], ?_⟩
        rw [e3]; simp; omega
      · intro h
        rw [hflat, find?_append_of_none _ _ _ hf] at h
        obtain ⟨new, e1, e2⟩ := i2 h
        refine ⟨_ :: new, ?_, List.Forall₂.cons hco e2⟩
        rw [hstep, e1]
        simp

theorem preRuleOf_regexs (clusters : String → Option ClusterTarget) :
    ∀ (crs : List ConfRule) (rules : List Rule), List.Forall₂ (PreRuleOf clusters) crs rules →
      (rules.map Rule.Regexs).flatten = declaredRegexs crs ∧ rules.length = crs.length
  | _, _, List.Forall₂.nil => ⟨rfl, rfl⟩
  | _, _, List.Forall₂.cons h t => by
    obtain ⟨i1, i2⟩ := preRuleOf_regexs clusters _ _ t
    simp only [declaredRegexs] at i1 ⊢
    simp [h.1, i1, i2]

theorem ruleOf_of_compiled (regexpCompile : String → CompileResult)
    (clusters : String → Option ClusterTarget) :
    ∀ (crs : List ConfRule) (pre rules : List Rule), List.Forall₂ (PreRuleOf clusters) crs pre →
      List.Forall₂ (CompiledOf regexpCompile) pre rules →
      List.Forall₂ (RuleOf regexpCompile clusters) crs rules
  | _, _, _, List.Forall₂.nil, List.Forall₂.nil => List.Forall₂.nil
  | _, _, _, List.Forall₂.cons h t, List.Forall₂.cons h' t' => by
    refine List.Forall₂.cons ?_ (ruleOf_of_compiled regexpCompile clusters _ _ _ t t')
    obtain ⟨a1, a2, a3, a4, _, _⟩ := h
    obtain ⟨b1, b2, b3, b4, b5, b6⟩ := h'
    exact ⟨b1.trans a1, b2.trans a2, b3.trans a3, b4 ▸ a4, a1 ▸ b5, a2 ▸ b6⟩

/-! ## The three outcomes of `Build` -/

/-- A missing cluster name: `Build` returns the rules of the declarations
before the offending one and the error naming the first missing name. -/
theorem Build_unknown (regexpCompile : String → CompileResult) (crs : List ConfRule)
    (clusters : String → Option ClusterTarget) (measureRegex : Bool) (n : String)
    (h : (declaredClusters crs).find? (isMissing clusters) = some n) :
    ∃ pre cr post new, crs = pre ++ cr :: post ∧
      (declaredClusters pre).find? (isMissing clusters) = none ∧
      cr.Clusters.find? (isMissing clusters) = some n ∧
      List.Forall₂ (PreRuleOf clusters) pre new ∧
      Build regexpCompile crs clusters measureRegex =
        ({ rules := new, measureRegex := measureRegex }, some (unknownClusterMsg n)) := by
  obtain ⟨pre, cr, post, new, e1, e2, e3, e4, e5⟩ := (buildRules_find clusters crs []).1 n h
  refine ⟨pre, cr, post, new, e1, e2, e3, e4, ?_⟩
  unfold Build
  simp only [e5, List.nil_append]

/-- A regex source that does not compile, all cluster names being known:
`Build` returns one rule per declaration and the wrapped error, in which
the only trace of the source is the message of `regexp.Compile`. -/
theorem Build_badRegex (regexpCompile : String → CompileResult) (crs : List ConfRule)
    (clusters : String → Option ClusterTarget) (measureRegex : Bool) (re : String)
    (hcl : (declaredClusters crs).find? (isMissing clusters) = none)
    (h : (declaredRegexs crs).find? (failsCompile regexpCompile) = some re) :
    ∃ e rules, regexpCompile re = Except.error e ∧ rules.length = crs.length ∧
      Build regexpCompile crs clusters measureRegex =
        ({ rules := rules, measureRegex := measureRegex },
          some (wrap (wrap e ("compiling regex " ++ fmtNilRegexp ++ " failed"))
            "rules compilation failed")) := by
  obtain ⟨pre, e1, e2⟩ := (buildRules_find clusters crs []).2 hcl
  obtain ⟨r1, r2⟩ := preRuleOf_regexs clusters crs pre e2
  rw [← r1] at h
  obtain ⟨e, rules, c1, c2, c3⟩ := (compileRules_find regexpCompile pre []).1 re h
  refine ⟨e, rules, c1, by rw [c3, r2]; simp, ?_⟩
  unfold Build Rules.compile
  simp only [e1, List.nil_append, c2]

/-- No missing cluster name and no failing regex source: `Build` succeeds
with one rule per declaration, in order. -/
theorem Build_ok (regexpCompile : String → CompileResult) (crs : List ConfRule)
    (clusters : String → Option ClusterTarget) (measureRegex : Bool)
    (hcl : (declaredClusters crs).find? (isMissing clusters) = none)
    (hre : (declaredRegexs crs).find? (failsCompile regexpCompile) = none) :
    ∃ rules, List.Forall₂ (RuleOf regexpCompile clusters) crs rules ∧
      Build regexpCompile crs clusters measureRegex =
        ({ rules := rules, measureRegex := measureRegex }, none) := by
  obtain ⟨pre, e1, e2⟩ := (buildRules_find clusters crs []).2 hcl
  obtain ⟨r1, _⟩ := preRuleOf_regexs clusters crs pre e2
  rw [← r1] at hre
  obtain ⟨rules, c1, c2⟩ := (compileRules_find regexpCompile pre []).2 hre
  refine ⟨rules, ruleOf_of_compiled regexpCompile clusters crs pre rules e2 c2, ?_⟩
  unfold Build Rules.compile
  simp only [e1, List.nil_append, c1]

/-! ## The `changed` flag of `normalizePathBytes` -/

theorem length_dropDotBeforeDot_le :
    ∀ (u : List Byte), (dropDotBeforeDot u).length ≤ u.length
  | [] => by simp [dropDotBeforeDot]
  | c :: u => by
    have ih := length_dropDotBeforeDot_le u
    unfold dropDotBeforeDot
    by_cases hcd : c = dot ∧ u.head? = some dot
    · rw [if_pos hcd]; simp; omega
    · rw [if_neg hcd]; simp; omega

/-- When something needs normalization and `'_'` is allowed, the reference
result differs from the stripped path. -/
theorem ref_ne_of_needsNorm (validChar : Byte → Bool) (hu : validChar underscore = true) :
    ∀ (m : List Byte), needsNorm validChar m = true →
      replaceInvalid validChar (dropDotBeforeDot m) ≠ m
  | [], h => by simp [needsNorm] at h
  | c :: m, h => by
    by_cases hcd : c = dot ∧ m.head? = some dot
    · intro heq
      have hlen := congrArg List.length heq
      unfold dropDotBeforeDot at hlen
      rw [if_pos hcd] at hlen
      have := length_dropDotBeforeDot_le m
      simp [replaceInvalid] at hlen
      omega
    · unfold dropDotBeforeDot
      rw [if_neg hcd]
      simp only [replaceInvalid, List.map_cons]
      intro heq
      rw [List.cons.injEq] at heq
      obtain ⟨h1, h2⟩ := heq
      by_cases hv : validChar c = true
      · have hn : needsNorm validChar m = true := by
          simp only [needsNorm, Bool.or_eq_true, Bool.and_eq_true] at h
          rcases h with (⟨a, b⟩ | a) | a
          · exact absurd ⟨by simpa using a, by simpa using b⟩ hcd
          · simp [hv] at a
          · exact a
        exact ref_ne_of_needsNorm validChar hu m hn h2
      · simp only [hv, Bool.false_eq_true, if_false] at h1
        rw [← h1] at hv
        exact hv hu

theorem needsNorm_of_canonical (validChar : Byte → Bool) :
    ∀ (m : List Byte), NoAdjacentDots m → (∀ c ∈ m, validChar c = true) →
      needsNorm validChar m = false
  | [], _, _ => rfl
  | c :: m, h, hv => by
    unfold NoAdjacentDots at h
    rw [List.chain'_cons'] at h
    have ih := needsNorm_of_canonical validChar m h.2 (fun x hx => hv x (List.mem_cons_of_mem _ hx))
    have hc : validChar c = true := hv c (List.mem_cons_self _ _)
    have hnd : (c == dot && m.head? == some dot) = false := by
      rw [Bool.and_eq_false_iff]
      by_cases hcd : c = dot
      · right
        cases hh : m.head? with
        | none => rfl
        | some d =>
          have := h.1 d (by simp [hh])
          have hd : d ≠ dot := fun hd => this ⟨hcd, hd⟩
          simpa using hd
      · left; simpa using hcd
    simp [needsNorm, hnd, hc, ih]

/-! ## Index bounds -/

/-- The bounds of a successful `getField`: the field starts at or after
`st`, is not empty, ends inside `s` at a whitespace byte or at the end, and
starts after `st` when the byte at `st` is whitespace. -/
theorem getField_bounds (s : List Byte) (st : Nat) (h : st ≤ s.length)
    (hok : (getField s st).2.2 = none) :
    st ≤ (getField s st).1 ∧ (getField s st).1 < (getField s st).2.1 ∧
      (getField s st).2.1 ≤ s.length ∧ WsOrEnd (s.drop (getField s st).2.1) ∧
      (WsOrEnd (s.drop st) → st < (getField s st).1) := by
  by_cases heq : st = s.length
  · simp [getField, heq] at hok
  have hlt : st < s.length := by omega
  rw [getField_spec s st hlt] at hok ⊢
  generalize hk : ((s.drop st).takeWhile isWhitespace).length = k at hok ⊢
  by_cases hend : st + k = s.length
  · simp [hend] at hok
  simp only [if_neg hend]
  have hkle : k ≤ (s.drop st).length := by
    rw [← hk]; exact (List.takeWhile_sublist _).length_le
  rw [List.length_drop] at hkle
  have hlt2 : st + k < s.length := by omega
  have hstop : isWhitespace s[st + k] = false := by
    have h1 : ((s.drop st).takeWhile isWhitespace).length < (s.drop st).length := by
      rw [hk, List.length_drop]; omega
    have := takeWhile_length_stop isWhitespace (s.drop st) h1
    simpa [hk] using this
  generalize hm : ((s.drop (st + k)).takeWhile (fun c => !isWhitespace c)).length = m
  have hmle : m ≤ (s.drop (st + k)).length := by
    rw [← hm]; exact (List.takeWhile_sublist _).length_le
  rw [List.length_drop] at hmle
  have hmpos : 0 < m := by
    rw [← hm, List.drop_eq_getElem_cons hlt2, List.takeWhile_cons]
    simp [hstop]
  refine ⟨by omega, by omega, by omega, ?_, ?_⟩
  · have hdm : s.drop (st + k + m) =
        (s.drop (st + k)).dropWhile (fun c => !isWhitespace c) := by
      rw [← drop_takeWhile_length, hm, List.drop_drop]
    rw [hdm]
    intro c hc
    have := dropWhile_head (fun c => !isWhitespace c) _ c hc
    simpa using this
  · intro hws
    have hw : isWhitespace s[st] = true := by
      apply hws
      rw [List.drop_eq_getElem_cons hlt]
      rfl
    have hkpos : 0 < k := by
      rw [← hk, List.drop_eq_getElem_cons hlt, List.takeWhile_cons]
      simp [hw]
    omega

/-- The bounds of a successful `recFields` are strictly increasing and end
inside `s`. -/
theorem recFields_bounds (s : List Byte) (h : (recFields s).retErr = none) :
    (recFields s).pathStart < (recFields s).pathEnd ∧
      (recFields s).pathEnd < (recFields s).valStart ∧
      (recFields s).valStart < (recFields s).valEnd ∧
      (recFields s).valEnd < (recFields s).timeStart ∧
      (recFields s).timeStart < (recFields s).timeEnd ∧
      (recFields s).timeEnd ≤ s.length := by
  unfold recFields at h ⊢
  rcases h0 : getField s 0 with ⟨a0, b0, e0⟩
  rw [h0] at h
  cases e0 with
  | some err => simp at h
  | none =>
    simp only at h ⊢
    have c0 := getField_bounds s 0 (Nat.zero_le _) (by rw [h0])
    rw [h0] at c0
    simp only at c0
    rcases h1 : getField s b0 with ⟨a1, b1, e1⟩
    rw [h1] at h
    cases e1 with
    | some err => simp at h
    | none =>
      simp only at h ⊢
      have c1 := getField_bounds s b0 c0.2.2.1 (by rw [h1])
      rw [h1] at c1
      simp only at c1
      rcases h2 : getField s b1 with ⟨a2, b2, e2⟩
      rw [h2] at h
      cases e2 with
      | some err => simp at h
      | none =>
        simp only
        have c2 := getField_bounds s b1 c1.2.2.1 (by rw [h2])
        rw [h2] at c2
        simp only at c2
        have := c1.2.2.2.2 c0.2.2.2.1
        have := c2.2.2.2.2 c1.2.2.2.1
        omega

/-- The two scanning loops of `normalizePathBytes` on leading dots, a
stripped path and trailing dots. -/
theorem normLoops_decomp (ld m td : List Byte)
    (hld : ∀ c ∈ ld, c = dot) (htd : ∀ c ∈ td, c = dot) (hne : m ≠ [])
    (hhead : HeadNotDot m) (hlast : LastNotDot m) :
    normStart (ld ++ (m ++ td)) (ld ++ (m ++ td)).length 0 = ld.length ∧
      normEnd (ld ++ (m ++ td)) ld.length (ld ++ (m ++ td)).length
        (((ld ++ (m ++ td)).length : Int) - 1) =
        some (((ld.length + m.length - 1 : Nat) : Nat) : Int) ∧
      (ld ++ (m ++ td))[ld.length + m.length - 1]? = m.getLast? := by
  have hmlen : 0 < m.length := List.length_pos.mpr hne
  have hlen : (ld ++ (m ++ td)).length = ld.length + (m.length + td.length) := by simp
  obtain ⟨x, hx⟩ : ∃ x, m.getLast? = some x := by
    cases hgl : m.getLast? with
    | none => exact absurd (List.getLast?_eq_none_iff.mp hgl) hne
    | some x => exact ⟨x, rfl⟩
  obtain ⟨u, hu⟩ : ∃ u, m = u ++ [x] := by
    rcases List.eq_nil_or_concat m with h | ⟨u, y, h⟩
    · exact absurd h hne
    · subst h; simp at hx; subst hx; exact ⟨u, by simp⟩
  refine ⟨?_, ?_, ?_⟩
  · rw [normStart_eq _ _ 0 (by omega)]
    simp only [List.drop_zero, Nat.zero_add]
    rw [takeWhile_append_stop isDot ld (m ++ td) (by intro x hx; simp [isDot, hld x hx])]
    intro c hc
    obtain ⟨a, m', rfl⟩ := List.exists_cons_of_ne_nil hne
    simp at hc; subst hc
    simpa [isDot] using hhead a rfl
  · have := normEnd_eq (ld ++ u) td x ld.length (hlast x hx) htd (by simp) td.length
      (ld ++ (m ++ td)).length (le_refl _) (by omega)
    have e1 : (ld ++ u) ++ x :: td = ld ++ (m ++ td) := by simp [hu]
    rw [e1] at this
    have e2 : ((((ld ++ (m ++ td)).length : Nat) : Int) - 1) =
        (((ld ++ u).length + td.length : Nat) : Int) := by
      simp [hu]; omega
    have e3 : ld.length + m.length - 1 = (ld ++ u).length := by
      simp [hu]
    rw [e2, e3]; exact this
  · rw [hx]
    have e1 : ld ++ (m ++ td) = (ld ++ u) ++ x :: td := by simp [hu]
    have e3 : ld.length + m.length - 1 = (ld ++ u).length := by
      simp [hu]
    rw [e1, e3, List.getElem?_append_right (le_refl _)]
    simp

/-- `normalizePathBytes` returns on every input. -/
theorem normalizePathBytes_total (validChar : Byte → Bool) (s : List Byte) :
    ∃ res, normalizePathBytes validChar s = some res := by
  by_cases hnd : ∃ c ∈ s, c ≠ dot
  · obtain ⟨changed, h⟩ := normalizePathBytes_of_nondot validChar s hnd
    exact ⟨_, h⟩
  · push_neg at hnd
    by_cases hne : s = []
    · subst hne; exact ⟨_, rfl⟩
    · exact ⟨_, normalizePathBytes_dots validChar s hne hnd⟩

/-- `ParseRecBytes` returns on every input. -/
theorem ParseRecBytes_total (validChar : Byte → Bool) (s : List Byte) (normalize : Bool)
    (now : Nat) : ∃ res, ParseRecBytes validChar s normalize now = some res := by
  cases hre : (recFields s).retErr with
  | some err => exact ⟨_, ParseRecBytes_fields_error validChar s normalize now err hre⟩
  | none =>
    obtain ⟨p, v, t, _, _, _, sp, sv, st⟩ := recFields_ok s hre
    unfold ParseRecBytes
    simp only [hre, sp, sv, st]
    cases normalize with
    | false => exact ⟨_, rfl⟩
    | true =>
      obtain ⟨⟨q, changed, err⟩, hn⟩ := normalizePathBytes_total validChar p
      simp only [if_true, Option.some_bind, hn]
      cases err with
      | none => exact ⟨_, rfl⟩
      | some e => exact ⟨_, rfl⟩

/-! ## Lines with at least three fields -/

/-- A list with at least one field is a whitespace run, the first field and
a remainder that is empty or starts with whitespace. -/
theorem fields_split (l : List Byte) (h : 1 ≤ countFields l) :
    ∃ w f rest, l = w ++ (f ++ rest) ∧ WsRun w ∧ f ≠ [] ∧ NoWs f ∧ WsOrEnd rest ∧
      countFields rest + 1 = countFields l ∧ (WsOrEnd l → w ≠ []) := by
  have hne : l.dropWhile isWhitespace ≠ [] := by
    intro hnil
    have := countFieldsAux_true_dropWhile l
    rw [hnil] at this
    unfold countFields at h
    rw [this] at h
    simp [countFieldsAux] at h
  obtain ⟨c, l1, hl⟩ := List.exists_cons_of_ne_nil hne
  have hc : isWhitespace c = false := dropWhile_head isWhitespace l c (by rw [hl]; rfl)
  refine ⟨l.takeWhile isWhitespace,
    (l.dropWhile isWhitespace).takeWhile (fun c => !isWhitespace c),
    (l.dropWhile isWhitespace).dropWhile (fun c => !isWhitespace c), ?_, ?_, ?_, ?_, ?_, ?_, ?_⟩
  · rw [List.takeWhile_append_dropWhile, List.takeWhile_append_dropWhile]
  · intro x hx; exact List.mem_takeWhile_imp hx
  · rw [hl, List.takeWhile_cons]; simp [hc]
  · intro x hx; simpa using List.mem_takeWhile_imp hx
  · intro x hx
    have := dropWhile_head (fun c => !isWhitespace c) _ x hx
    simpa using this
  · exact (countFields_split l hne).symm
  · intro hws
    cases l with
    | nil => simp at hne
    | cons a l' =>
      have ha : isWhitespace a = true := hws a rfl
      rw [List.takeWhile_cons]
      simp [ha]

/-! ## The claims, continued -/

/-- C11: when `ParseRecBytes` succeeds, for either value of the normalize
flag, the `Path` of the returned record is not empty; and the normalizer
returns a non-empty path on every non-empty path that is not made only of
dots. -/
theorem parse_path_nonempty (validChar : Byte → Bool) (s : List Byte) (normalize : Bool)
    (now : Nat) (r : RecBytes) :
    (ParseRecBytes validChar s normalize now = some (some r, none) → r.Path ≠ []) ∧
      ∀ p : List Byte, p ≠ [] → (∃ c ∈ p, c ≠ dot) →
        ∃ q changed, normalizePathBytes validChar p = some (q, changed, none) ∧ q ≠ [] := by
  refine ⟨fun h => (ParseRecBytes_ok_fields validChar s normalize now r h).1.1, ?_⟩
  intro p _ hnd
  obtain ⟨changed, hn⟩ := normalizePathBytes_of_nondot validChar p hnd
  obtain ⟨ld, td, _, _, _, hne, hhead, hlast⟩ := stripDots_decomp p hnd
  exact ⟨_, changed, hn, (replaceInvalid_dropDot_props validChar _ hne hhead hlast).1⟩

theorem parse_path_nonempty_witness :
    ParseRecBytes validCharSample [46, 46, 33, 46, 32, 49, 32, 50] true 0 =
        some (some ⟨[95], 0, [49], 0, [50], 0⟩, none) ∧
      (⟨[95], 0, [49], 0, [50], 0⟩ : RecBytes).Path ≠ [] :=
  ⟨by decide,
    (parse_path_nonempty validCharSample [46, 46, 33, 46, 32, 49, 32, 50] true 0
      ⟨[95], 0, [49], 0, [50], 0⟩).1 (by decide)⟩

/-- C12: the sequence of `PushBytes` calls of `RouteRecBytes` (targets and
records) does not depend on what the calls return: it is the same for any
two behaviours of the targets, in particular the same as when every push
succeeds, so a failed push aborts neither the remaining targets of the rule
nor the remaining rules. -/
theorem route_push_failures_independent (push push' : ClusterTarget → RecBytes → GoError)
    (rs : Rules) (r : RecBytes) :
    (rs.RouteRecBytes push r).pushes = (rs.RouteRecBytes push' r).pushes ∧
      (rs.RouteRecBytes push r).calls = (rs.RouteRecBytes (fun _ _ => none) r).calls := by
  refine ⟨(routeLoop_indep push push' r rs.rules _ _ rfl rfl).2, ?_⟩
  unfold RouteState.calls
  rw [show (rs.RouteRecBytes push r).pushes = (rs.RouteRecBytes (fun _ _ => none) r).pushes from
    (routeLoop_indep push (fun _ _ => none) r rs.rules _ _ rfl rfl).2]

/-- C13: when some declared rule lists a cluster name that is absent from
the cluster map, `Build` returns an error whose message names the first such
name in declaration order (rules in order, names within a rule in order). -/
theorem build_unknown_cluster (regexpCompile : String → CompileResult) (crs : List ConfRule)
    (clusters : String → Option ClusterTarget) (measureRegex : Bool)
    (h : ∃ n ∈ declaredClusters crs, clusters n = none) :
    ∃ first, (declaredClusters crs).find? (isMissing clusters) = some first ∧
      (Build regexpCompile crs clusters measureRegex).2 =
        some ("got non-existent cluster name " ++ first ++ " in the rules config") := by
  cases hf : (declaredClusters crs).find? (isMissing clusters) with
  | none =>
    obtain ⟨n, hn, hc⟩ := h
    have := List.find?_eq_none.mp hf n hn
    simp [isMissing, hc] at this
  | some first =>
    obtain ⟨_, _, _, _, _, _, _, _, hb⟩ :=
      Build_unknown regexpCompile crs clusters measureRegex first hf
    exact ⟨first, rfl, by rw [hb]; rfl⟩

theorem build_unknown_cluster_witness :
    (∃ n ∈ declaredClusters [⟨[], [bytes "a."], ["main", "backup"], true⟩,
        ⟨["^b"], [], ["main", "east", "west"], false⟩], clustersSample n = none) ∧
      ∃ first, (declaredClusters [⟨[], [bytes "a."], ["main", "backup"], true⟩,
          ⟨["^b"], [], ["main", "east", "west"], false⟩]).find? (isMissing clustersSample) =
            some first ∧
        (Build regexpCompileSample [⟨[], [bytes "a."], ["main", "backup"], true⟩,
          ⟨["^b"], [], ["main", "east", "west"], false⟩] clustersSample false).2 =
          some ("got non-existent cluster name " ++ first ++ " in the rules config") :=
  ⟨⟨"east", by decide, by decide⟩,
    build_unknown_cluster regexpCompileSample [⟨[], [bytes "a."], ["main", "backup"], true⟩,
      ⟨["^b"], [], ["main", "east", "west"], false⟩] clustersSample false
      ⟨"east", by decide, by decide⟩⟩

set_option maxRecDepth 20000 in
/-- C14 (the code at the failing input): with the single rule whose regex
sources are `^a` and `x{1001}` and whose cluster is `main`, `Build` returns
the error `rules compilation failed: compiling regex <nil> failed: error
parsing regexp: invalid repeat count: {1001}` (the fragment between
backquotes), in which the source text `x{1001}` does not occur: `compile`
formats the nil compiled expression instead of the source. -/
theorem build_bad_regex_message :
    (Build regexpCompileSample [⟨["^a", "x\x7b1001\x7d"], [], ["main"], false⟩]
        clustersSample false).2 =
      some ("rules compilation failed: compiling regex <nil> failed: " ++
        "error parsing regexp: invalid repeat count: `\x7b1001\x7d`") ∧
      ¬ ("x\x7b1001\x7d".toList <:+:
        ("rules compilation failed: compiling regex <nil> failed: " ++
          "error parsing regexp: invalid repeat count: `\x7b1001\x7d`").toList) := by
  decide

/-- C15 (as stated, refuted): with a first rule whose cluster is known and a
second rule whose cluster is not, `Build` returns an error together with a
table that holds one rule; with a regex source that does not compile it
returns an error together with a table that holds both declared rules. -/
theorem build_error_table_counterexample :
    ((Build regexpCompileSample [⟨[], [bytes "a."], ["main"], true⟩,
        ⟨[], [bytes "b."], ["east"], false⟩] clustersSample false).2 ≠ none ∧
      (Build regexpCompileSample [⟨[], [bytes "a."], ["main"], true⟩,
        ⟨[], [bytes "b."], ["east"], false⟩] clustersSample false).1.rules.length = 1) ∧
    ((Build regexpCompileSample [⟨["a**"], [], ["main"], true⟩,
        ⟨[], [bytes "b."], ["backup"], false⟩] clustersSample false).2 ≠ none ∧
      (Build regexpCompileSample [⟨["a**"], [], ["main"], true⟩,
        ⟨[], [bytes "b."], ["backup"], false⟩] clustersSample false).1.rules.length = 2) := by
  decide

/-- C15 (amended): `Build` returns an error exactly when a declared cluster
name is missing or a declared regex source does not compile, and the table
returned alongside the error holds the rules assembled so far: for a missing
cluster name, the rules of the declarations before the offending one, with
their targets and nothing compiled; for a regex source that does not compile,
one rule per declared rule. -/
theorem build_error_table (regexpCompile : String → CompileResult) (crs : List ConfRule)
    (clusters : String → Option ClusterTarget) (measureRegex : Bool) :
    ((Build regexpCompile crs clusters measureRegex).2 ≠ none ↔
        (declaredClusters crs).find? (isMissing clusters) ≠ none ∨
          (declaredRegexs crs).find? (failsCompile regexpCompile) ≠ none) ∧
      (∀ n, (declaredClusters crs).find? (isMissing clusters) = some n →
        ∃ pre cr post, crs = pre ++ cr :: post ∧
          (declaredClusters pre).find? (isMissing clusters) = none ∧
          cr.Clusters.find? (isMissing clusters) = some n ∧
          (Build regexpCompile crs clusters measureRegex).2 ≠ none ∧
          List.Forall₂ (PreRuleOf clusters) pre
            (Build regexpCompile crs clusters measureRegex).1.rules) ∧
      ((declaredClusters crs).find? (isMissing clusters) = none →
        (declaredRegexs crs).find? (failsCompile regexpCompile) ≠ none →
        (Build regexpCompile crs clusters measureRegex).2 ≠ none ∧
          (Build regexpCompile crs clusters measureRegex).1.rules.length = crs.length) := by
  refine ⟨?_, ?_, ?_⟩
  · cases hcl : (declaredClusters crs).find? (isMissing clusters) with
    | some n =>
      obtain ⟨_, _, _, _, _, _, _, _, hb⟩ :=
        Build_unknown regexpCompile crs clusters measureRegex n hcl
      simp [hb]
    | none =>
      cases hre : (declaredRegexs crs).find? (failsCompile regexpCompile) with
      | some re =>
        obtain ⟨_, _, _, _, hb⟩ :=
          Build_badRegex regexpCompile crs clusters measureRegex re hcl hre
        simp [hb]
      | none =>
        obtain ⟨_, _, hb⟩ := Build_ok regexpCompile crs clusters measureRegex hcl hre
        simp [hb]
  · intro n hn
    obtain ⟨pre, cr, post, new, e1, e2, e3, e4, hb⟩ :=
      Build_unknown regexpCompile crs clusters measureRegex n hn
    exact ⟨pre, cr, post, e1, e2, e3, by simp [hb], by rw [hb]; exact e4⟩
  · intro hcl hre
    cases hf : (declaredRegexs crs).find? (failsCompile regexpCompile) with
    | none => exact absurd hf hre
    | some re =>
      obtain ⟨_, rules, _, hlen, hb⟩ :=
        Build_badRegex regexpCompile crs clusters measureRegex re hcl hf
      exact ⟨by simp [hb], by rw [hb]; exact hlen⟩

theorem build_error_table_witness :
    (declaredClusters [⟨[], [bytes "a."], ["main"], true⟩,
        ⟨[], [bytes "b."], ["east"], false⟩]).find? (isMissing clustersSample) = some "east" ∧
      ∃ pre cr post, [(⟨[], [bytes "a."], ["main"], true⟩ : ConfRule),
          ⟨[], [bytes "b."], ["east"], false⟩] = pre ++ cr :: post ∧
        (declaredClusters pre).find? (isMissing clustersSample) = none ∧
        cr.Clusters.find? (isMissing clustersSample) = some "east" ∧
        (Build regexpCompileSample [⟨[], [bytes "a."], ["main"], true⟩,
          ⟨[], [bytes "b."], ["east"], false⟩] clustersSample false).2 ≠ none ∧
        List.Forall₂ (PreRuleOf clustersSample) pre
          (Build regexpCompileSample [⟨[], [bytes "a."], ["main"], true⟩,
            ⟨[], [bytes "b."], ["east"], false⟩] clustersSample false).1.rules :=
  ⟨by decide,
    (build_error_table regexpCompileSample [⟨[], [bytes "a."], ["main"], true⟩,
      ⟨[], [bytes "b."], ["east"], false⟩] clustersSample false).2.1 "east" (by decide)⟩

/-- C16: when `Build` succeeds the table has exactly one rule per declared
rule, in declaration order, and each rule carries its declaration's
`Regexs`, `Prefixes` and `Continue` flag, the targets its cluster names map
to, in order, and one compiled expression per regex source, in order (and
the trie of its prefixes); the table keeps the `measureRegex` flag. -/
theorem build_success (regexpCompile : String → CompileResult) (crs : List ConfRule)
    (clusters : String → Option ClusterTarget) (measureRegex : Bool)
    (h : (Build regexpCompile crs clusters measureRegex).2 = none) :
    (Build regexpCompile crs clusters measureRegex).1.rules.length = crs.length ∧
      List.Forall₂
        (fun cr rl =>
          rl.Regexs = cr.Regexs ∧ rl.Prefixes = cr.Prefixes ∧ rl.Continue = cr.Continue ∧
          List.Forall₂ (fun clName cl => clusters clName = some cl) cr.Clusters rl.Targets ∧
          List.Forall₂ (fun re cre => regexpCompile re = Except.ok cre) cr.Regexs
            rl.CompiledRE ∧
          rl.PrefixTrie = compileTrie cr.Prefixes)
        crs (Build regexpCompile crs clusters measureRegex).1.rules ∧
      (Build regexpCompile crs clusters measureRegex).1.measureRegex = measureRegex := by
  cases hcl : (declaredClusters crs).find? (isMissing clusters) with
  | some n =>
    obtain ⟨_, _, _, _, _, _, _, _, hb⟩ :=
      Build_unknown regexpCompile crs clusters measureRegex n hcl
    rw [hb] at h
    simp at h
  | none =>
    cases hre : (declaredRegexs crs).find? (failsCompile regexpCompile) with
    | some re =>
      obtain ⟨_, _, _, _, hb⟩ :=
        Build_badRegex regexpCompile crs clusters measureRegex re hcl hre
      rw [hb] at h
      simp at h
    | none =>
      obtain ⟨rules, hr, hb⟩ := Build_ok regexpCompile crs clusters measureRegex hcl hre
      rw [hb]
      exact ⟨hr.length_eq.symm, hr, rfl⟩

theorem build_success_witness :
    (Build regexpCompileSample [⟨["^a", "^b"], [bytes "a."], ["main", "backup"], true⟩,
        ⟨[], [bytes "b.", bytes "c."], ["backup"], false⟩] clustersSample true).2 = none ∧
      (Build regexpCompileSample [⟨["^a", "^b"], [bytes "a."], ["main", "backup"], true⟩,
        ⟨[], [bytes "b.", bytes "c."], ["backup"], false⟩] clustersSample true).1.rules.map
          (fun rl => (rl.Regexs, rl.Prefixes, rl.Targets, rl.Continue, rl.CompiledRE.length)) =
        [(["^a", "^b"], [bytes "a."], [1, 2], true, 2),
          ([], [bytes "b.", bytes "c."], [2], false, 0)] ∧
      (Build regexpCompileSample [⟨["^a", "^b"], [bytes "a."], ["main", "backup"], true⟩,
        ⟨[], [bytes "b.", bytes "c."], ["backup"], false⟩] clustersSample true).1.rules.length =
        [(⟨["^a", "^b"], [bytes "a."], ["main", "backup"], true⟩ : ConfRule),
          ⟨[], [bytes "b.", bytes "c."], ["backup"], false⟩].length :=
  ⟨by decide, by decide,
    (build_success regexpCompileSample [⟨["^a", "^b"], [bytes "a."], ["main", "backup"], true⟩,
      ⟨[], [bytes "b.", bytes "c."], ["backup"], false⟩] clustersSample true (by decide)).1⟩

/-- C17: assuming `'_'` is allowed, on every path on which
`normalizePathBytes` succeeds its second result is false exactly when the
returned path equals the input byte for byte; and a canonical path (no
leading or trailing dot, no adjacent dots, only allowed bytes) is returned
unchanged with the flag false. -/
theorem changed_flag_exact (validChar : Byte → Bool) (p : List Byte)
    (hu : validChar underscore = true) :
    (∀ q changed, normalizePathBytes validChar p = some (q, changed, none) →
        (changed = false ↔ q = p)) ∧
      (HeadNotDot p → LastNotDot p → NoAdjacentDots p → (∀ c ∈ p, validChar c = true) →
        normalizePathBytes validChar p = some (p, false, none)) := by
  refine ⟨?_, ?_⟩
  · intro q changed h
    by_cases hnd : ∃ c ∈ p, c ≠ dot
    · obtain ⟨ld, td, hp, hld, htd, hne, hhead, hlast⟩ := stripDots_decomp p hnd
      have h1 := normalizePathBytes_decomp validChar ld (stripDots p) td hld htd hne hhead hlast
      rw [← hp, h] at h1
      simp only [Option.some.injEq, Prod.mk.injEq, and_true] at h1
      obtain ⟨hq, hch⟩ := h1
      have hplen : p.length = ld.length + ((stripDots p).length + td.length) := by
        conv_lhs => rw [hp]
        simp
      have hqlen : q.length ≤ (stripDots p).length := by
        rw [hq]
        simpa [replaceInvalid] using length_dropDotBeforeDot_le (stripDots p)
      constructor
      · intro hf
        rw [hf] at hch
        have hch' := hch.symm
        simp only [Bool.or_eq_false_iff, Bool.not_eq_false', Bool.and_eq_true,
          List.isEmpty_iff] at hch'
        obtain ⟨hn, hl, ht⟩ := hch'
        rw [hq, ref_of_not_needsNorm validChar _ hn]
        conv_rhs => rw [hp, hl, ht]
        simp
      · intro hqp
        cases hc : changed with
        | false => rfl
        | true =>
          exfalso
          rw [hc] at hch
          have hch' := hch.symm
          have hlen : ld.length = 0 ∧ td.length = 0 := by
            have := congrArg List.length hqp
            omega
          have hl : ld = [] := List.length_eq_zero.mp hlen.1
          have ht : td = [] := List.length_eq_zero.mp hlen.2
          rw [hl, ht] at hch'
          simp only [List.isEmpty_nil, Bool.and_self, Bool.not_true, Bool.or_false] at hch'
          have hpm : p = stripDots p := by
            conv_lhs => rw [hp, hl, ht]
            simp
          apply ref_ne_of_needsNorm validChar hu (stripDots p) hch'
          rw [← hq, hqp]
          exact hpm
    · push_neg at hnd
      by_cases hne : p = []
      · subst hne
        simp [normalizePathBytes] at h
        obtain ⟨h1, h2⟩ := h
        simp [h1, h2]
      · rw [normalizePathBytes_dots validChar p hne hnd] at h
        simp at h
  · intro hhead hlast hadj hvalid
    by_cases hne : p = []
    · subst hne; rfl
    · have h := normalizePathBytes_decomp validChar [] p [] (by intro c hc; simp at hc)
        (by intro c hc; simp at hc) hne hhead hlast
      have hn := needsNorm_of_canonical validChar p hadj hvalid
      rw [ref_of_not_needsNorm validChar p hn, hn] at h
      simpa using h

theorem changed_flag_exact_witness :
    validCharSample underscore = true ∧
      normalizePathBytes validCharSample [97, 46, 46, 98] = some ([97, 46, 98], true, none) ∧
      ((true = false) ↔ ([97, 46, 98] : List Byte) = [97, 46, 46, 98]) ∧
      normalizePathBytes validCharSample [97, 46, 98] = some ([97, 46, 98], false, none) :=
  ⟨by decide, by decide,
    (changed_flag_exact validCharSample [97, 46, 46, 98] (by decide)).1 [97, 46, 98] true
      (by decide),
    (changed_flag_exact validCharSample [97, 46, 98] (by decide)).2
      (by intro c hc; simp at hc; subst hc; decide)
      (by intro c hc; simp at hc; subst hc; decide)
      (by simp [NoAdjacentDots, dot]) (by decide)⟩

/-- C19: `ParseRecBytes` and `normalizePathBytes` return on every input, so
no index or slice is out of range; whenever `recFields` succeeds its bounds
satisfy `0 <= pathStart < pathEnd < valStart < valEnd < timeStart < timeEnd
<= len(s)`; and on a path that is not made only of dots the backward loop of
`normalizePathBytes` stops at an `end` with `start <= end < len(s)` whose
byte is not a dot, so that every dot at a position `i` in `start..end` has
`i + 1 <= end < len(s)`. -/
theorem no_out_of_range (validChar : Byte → Bool) (s : List Byte) (normalize : Bool)
    (now : Nat) :
    (∃ res, ParseRecBytes validChar s normalize now = some res) ∧
      ((recFields s).retErr = none →
        0 ≤ (recFields s).pathStart ∧
        (recFields s).pathStart < (recFields s).pathEnd ∧
        (recFields s).pathEnd < (recFields s).valStart ∧
        (recFields s).valStart < (recFields s).valEnd ∧
        (recFields s).valEnd < (recFields s).timeStart ∧
        (recFields s).timeStart < (recFields s).timeEnd ∧
        (recFields s).timeEnd ≤ s.length) ∧
      (∃ res, normalizePathBytes validChar s = some res) ∧
      ((∃ c ∈ s, c ≠ dot) →
        ∃ e : Nat,
          normEnd s (normStart s s.length 0) s.length ((s.length : Int) - 1) = some (e : Int) ∧
          normStart s s.length 0 ≤ e ∧ e < s.length ∧ s[e]? ≠ some dot ∧
          ∀ i, normStart s s.length 0 ≤ i → i ≤ e → s[i]? = some dot →
            i + 1 ≤ e ∧ e < s.length) := by
  refine ⟨ParseRecBytes_total validChar s normalize now, ?_,
    normalizePathBytes_total validChar s, ?_⟩
  · intro h
    exact ⟨Nat.zero_le _, recFields_bounds s h⟩
  · intro hnd
    obtain ⟨ld, td, hp, hld, htd, hne, hhead, hlast⟩ := stripDots_decomp s hnd
    obtain ⟨h1, h2, h3⟩ := normLoops_decomp ld (stripDots s) td hld htd hne hhead hlast
    rw [← hp] at h1 h2 h3
    have hmlen : 0 < (stripDots s).length := List.length_pos.mpr hne
    have hlen : s.length = ld.length + ((stripDots s).length + td.length) := by
      conv_lhs => rw [hp]
      simp
    have hnot : s[ld.length + (stripDots s).length - 1]? ≠ some dot := by
      rw [h3]
      intro hd
      exact hlast dot hd rfl
    refine ⟨ld.length + (stripDots s).length - 1, ?_, ?_, ?_, hnot, ?_⟩
    · rw [h1]; exact h2
    · rw [h1]; omega
    · omega
    · intro i _ hi hdot
      have : i ≠ ld.length + (stripDots s).length - 1 := by
        intro heq
        rw [heq] at hdot
        exact hnot hdot
      omega

theorem no_out_of_range_witness :
    (recFields [97, 32, 32, 49, 9, 50, 32, 51]).retErr = none ∧
      (0 ≤ (recFields [97, 32, 32, 49, 9, 50, 32, 51]).pathStart ∧
        (recFields [97, 32, 32, 49, 9, 50, 32, 51]).pathStart <
          (recFields [97, 32, 32, 49, 9, 50, 32, 51]).pathEnd ∧
        (recFields [97, 32, 32, 49, 9, 50, 32, 51]).pathEnd <
          (recFields [97, 32, 32, 49, 9, 50, 32, 51]).valStart ∧
        (recFields [97, 32, 32, 49, 9, 50, 32, 51]).valStart <
          (recFields [97, 32, 32, 49, 9, 50, 32, 51]).valEnd ∧
        (recFields [97, 32, 32, 49, 9, 50, 32, 51]).valEnd <
          (recFields [97, 32, 32, 49, 9, 50, 32, 51]).timeStart ∧
        (recFields [97, 32, 32, 49, 9, 50, 32, 51]).timeStart <
          (recFields [97, 32, 32, 49, 9, 50, 32, 51]).timeEnd ∧
        (recFields [97, 32, 32, 49, 9, 50, 32, 51]).timeEnd ≤
          ([97, 32, 32, 49, 9, 50, 32, 51] : List Byte).length) :=
  ⟨by decide,
    (no_out_of_range validCharSample [97, 32, 32, 49, 9, 50, 32, 51] true 0).2.1 (by decide)⟩

/-- C20: an input with at least three maximal runs of non-space, non-tab
bytes is accepted: it is a whitespace run, the three first runs separated by
non-empty whitespace runs, and a remainder that is empty or starts with a
space or a tab; `ParseRecBytes` without normalization returns these three
runs as `Path`, `RawVal` and `RawTime`, and returns the same record whatever
remainder follows the third run. -/
theorem parse_extra_fields (validChar : Byte → Bool) (s : List Byte) (now : Nat)
    (h : 3 ≤ countFields s) :
    ∃ w0 p w1 v w2 t rest, s = w0 ++ p ++ w1 ++ v ++ w2 ++ t ++ rest ∧
      WsRun w0 ∧ (p ≠ [] ∧ NoWs p) ∧ (w1 ≠ [] ∧ WsRun w1) ∧ (v ≠ [] ∧ NoWs v) ∧
      (w2 ≠ [] ∧ WsRun w2) ∧ (t ≠ [] ∧ NoWs t) ∧ WsOrEnd rest ∧
      ParseRecBytes validChar s false now =
        some (some { Path := p, Val := 0, RawVal := v, Time := 0, RawTime := t,
                     Received := now }, none) ∧
      ∀ rest', WsOrEnd rest' →
        ParseRecBytes validChar (w0 ++ p ++ w1 ++ v ++ w2 ++ t ++ rest') false now =
          some (some { Path := p, Val := 0, RawVal := v, Time := 0, RawTime := t,
                       Received := now }, none) := by
  obtain ⟨w0, p, r1, e0, hw0, hpne, hp, hr1, hc1, _⟩ := fields_split s (by omega)
  obtain ⟨w1, v, r2, e1, hw1, hvne, hv, hr2, hc2, hw1ne⟩ := fields_split r1 (by omega)
  obtain ⟨w2, t, rest, e2, hw2, htne, ht, hrest, _, hw2ne⟩ := fields_split r2 (by omega)
  have hs : s = w0 ++ p ++ w1 ++ v ++ w2 ++ t ++ rest := by
    rw [e0, e1, e2]
    simp [List.append_assoc]
  have hall : ∀ rest', WsOrEnd rest' →
      ParseRecBytes validChar (w0 ++ p ++ w1 ++ v ++ w2 ++ t ++ rest') false now =
        some (some { Path := p, Val := 0, RawVal := v, Time := 0, RawTime := t,
                     Received := now }, none) :=
    fun rest' hr => ParseRecBytes_three validChar w0 p w1 v w2 t rest' now hw0 hp hpne hw1
      (hw1ne hr1) hv hvne hw2 (hw2ne hr2) ht htne hr
  refine ⟨w0, p, w1, v, w2, t, rest, hs, hw0, ⟨hpne, hp⟩, ⟨hw1ne hr1, hw1⟩, ⟨hvne, hv⟩,
    ⟨hw2ne hr2, hw2⟩, ⟨htne, ht⟩, hrest, ?_, hall⟩
  conv_lhs => rw [hs]
  exact hall rest hrest

theorem parse_extra_fields_witness :
    3 ≤ countFields [97, 32, 49, 32, 50, 9, 51, 32, 52] ∧
      ParseRecBytes validCharSample [97, 32, 49, 32, 50, 9, 51, 32, 52] false 0 =
        some (some ⟨[97], 0, [49], 0, [50], 0⟩, none) ∧
      ∃ w0 p w1 v w2 t rest,
        ([97, 32, 49, 32, 50, 9, 51, 32, 52] : List Byte) =
          w0 ++ p ++ w1 ++ v ++ w2 ++ t ++ rest ∧
        WsRun w0 ∧ (p ≠ [] ∧ NoWs p) ∧ (w1 ≠ [] ∧ WsRun w1) ∧ (v ≠ [] ∧ NoWs v) ∧
        (w2 ≠ [] ∧ WsRun w2) ∧ (t ≠ [] ∧ NoWs t) ∧ WsOrEnd rest ∧
        ParseRecBytes validCharSample [97, 32, 49, 32, 50, 9, 51, 32, 52] false 0 =
          some (some { Path := p, Val := 0, RawVal := v, Time := 0, RawTime := t,
                       Received := 0 }, none) ∧
        ∀ rest', WsOrEnd rest' →
          ParseRecBytes validCharSample (w0 ++ p ++ w1 ++ v ++ w2 ++ t ++ rest') false 0 =
            some (some { Path := p, Val := 0, RawVal := v, Time := 0, RawTime := t,
                         Received := 0 }, none) :=
  ⟨by decide, by decide,
    parse_extra_fields validCharSample [97, 32, 49, 32, 50, 9, 51, 32, 52] 0 (by decide)⟩

end Nanotube
